import Mathlib

/-!
Verification development for the Hue binary-sensor coalesced-update coordinator
(src/homeassistant/components/binary_sensor/hue.py) and the cloud IoT message
dispatcher (src/homeassistant/components/cloud/iot.py).

The first part shallowly embeds the sequential update logic
(`async_update_items`, `create_binary_sensor`, `update_bridge`) as pure Lean
functions over explicit inputs.  The second part embeds the cooperative
(asyncio) concurrency of `request_update` as a small-step event machine.
-/

namespace Hue

/-! ### Sensor type constants

The five type tags come from the external `aiohue.sensors` module; the exact
string values are the aiohue constants.  The claims only depend on the five
values being pairwise distinct. -/

def TYPE_CLIP_GENERICFLAG : String := "CLIPGenericFlag"

def TYPE_CLIP_OPENCLOSE : String := "CLIPOpenClose"

def TYPE_CLIP_PRESENCE : String := "CLIPPresence"

def TYPE_DAYLIGHT : String := "Daylight"

def TYPE_ZLL_PRESENCE : String := "ZLLPresence"

/-- `ALL_BINARY_SENSORS` from hue.py line 24. -/
def ALL_BINARY_SENSORS : List String :=
  [TYPE_CLIP_GENERICFLAG, TYPE_CLIP_OPENCLOSE, TYPE_CLIP_PRESENCE,
   TYPE_DAYLIGHT, TYPE_ZLL_PRESENCE]

/-- `HUE_BINARY_SENSORS` from hue.py line 26. -/
def HUE_BINARY_SENSORS : List String := [TYPE_DAYLIGHT, TYPE_ZLL_PRESENCE]

/-- One sensor record as returned by the bridge API (`api[item_id]`):
its id key, its `.type` tag and its `.name`. -/
structure SensorItem where
  id : String
  type : String
  name : String
deriving DecidableEq, Repr

/-- The concrete proxy class chosen by `create_binary_sensor`. -/
inductive ProxyClass
  | clipGenericFlag
  | clipOpenClose
  | clipPresence
  | daylight
  | zllPresence
deriving DecidableEq, Repr

/-- A constructed device proxy: which class was instantiated and the sensor
record passed to the constructor (the `request_bridge_update` and `bridge`
constructor arguments carry no data relevant to the claims). -/
structure Proxy where
  cls : ProxyClass
  sensor : SensorItem
deriving DecidableEq, Repr

/-- `create_binary_sensor` (hue.py lines 271-283): an if/elif chain on
`sensor.type`; falls through to Python's implicit `None` on any other tag. -/
def create_binary_sensor (sensor : SensorItem) : Option Proxy :=
  if sensor.type = TYPE_CLIP_GENERICFLAG then
    some ⟨ProxyClass.clipGenericFlag, sensor⟩
  else if sensor.type = TYPE_CLIP_OPENCLOSE then
    some ⟨ProxyClass.clipOpenClose, sensor⟩
  else if sensor.type = TYPE_CLIP_PRESENCE then
    some ⟨ProxyClass.clipPresence, sensor⟩
  else if sensor.type = TYPE_DAYLIGHT then
    some ⟨ProxyClass.daylight, sensor⟩
  else if sensor.type = TYPE_ZLL_PRESENCE then
    some ⟨ProxyClass.zllPresence, sensor⟩
  else
    none

/-- Log lines emitted by hue.py, by kind. -/
inductive LogEvent
  | errorUnreachable (host : String)       -- line 136
  | infoReconnected (host : String)        -- line 146
  | infoAddedSensor (name : String) (stype : String)  -- line 164
deriving DecidableEq, Repr

/-- Whether a log line is one of the two availability-transition lines
(`Unable to reach bridge` / `Reconnected to bridge`). -/
def LogEvent.isAvailabilityLog : LogEvent → Bool
  | .errorUnreachable _ => true
  | .infoReconnected _ => true
  | .infoAddedSensor _ _ => false

/-- Outcome of `await api.update()` inside the `with async_timeout.timeout(4)`
block: normal return, `asyncio.TimeoutError`, `aiohue.AiohueException`, or any
other exception (abstracted by a numeric code). -/
inductive ApiResult
  | ok
  | timeoutErr
  | aiohueExc
  | otherExc (e : Nat)
deriving DecidableEq, Repr

/-- Observable effects of one `async_update_items` run. -/
structure UpdateEffects where
  /-- `bridge.available` after the run. -/
  available : Bool
  /-- Log lines emitted, in order. -/
  logs : List LogEvent
  /-- Item ids on which `async_schedule_update_ha_state()` was called, in order. -/
  notifications : List String
  /-- The `current` dict after the run (insertion-ordered association list;
  values are whatever `create_binary_sensor` returned, possibly `None`). -/
  current : List (String × Option Proxy)
  /-- The `new_sensors` list passed to `async_add_devices`. -/
  added : List (Option Proxy)
deriving DecidableEq, Repr

/-- State threaded through the `for item_id in api` loop of
`async_update_items` (hue.py lines 156-167). -/
structure LoopState where
  current : List (String × Option Proxy)
  new_sensors : List (Option Proxy)
  notifications : List String
  logs : List LogEvent
deriving Repr

/-- One iteration of the `for item_id in api` loop (hue.py lines 156-167):
filter on the allowed type list, create-and-log for unknown ids, notify
known ids that are not in `progress_waiting`. -/
def updateItemsStep (progress_waiting : List String) (st : LoopState)
    (bs : SensorItem) : LoopState :=
  if bs.type ∈ ALL_BINARY_SENSORS then
    if (st.current.lookup bs.id).isNone then
      { st with
        current := st.current ++ [(bs.id, create_binary_sensor bs)],
        new_sensors := st.new_sensors ++ [create_binary_sensor bs],
        logs := st.logs ++ [LogEvent.infoAddedSensor bs.name bs.type] }
    else if bs.id ∉ progress_waiting then
      { st with notifications := st.notifications ++ [bs.id] }
    else
      st
  else
    st

/-- `async_update_items` (hue.py lines 119-170).

Inputs: the outcome of `api.update()`, the refreshed sensor list `api`
(insertion-ordered, as iterated by `for item_id in api`), the current
`bridge.available` flag, `bridge.host`, the `current` dict and the
`progress_waiting` set.  `allow_clip_sensors` is the literal `True`
(line 125), so the allowed list is `ALL_BINARY_SENSORS`.

Returns `Except.error e` when a non-caught exception `e` propagates out,
otherwise the observable effects. -/
def async_update_items (apiResult : ApiResult) (api : List SensorItem)
    (available : Bool) (host : String)
    (current : List (String × Option Proxy)) (progress_waiting : List String) :
    Except Nat UpdateEffects :=
  match apiResult with
  | ApiResult.otherExc e => Except.error e
  | ApiResult.timeoutErr =>
    if ¬ available then
      Except.ok ⟨available, [], [], current, []⟩
    else
      Except.ok ⟨false, [LogEvent.errorUnreachable host],
        (current.filter (fun p => p.1 ∉ progress_waiting)).map Prod.fst,
        current, []⟩
  | ApiResult.aiohueExc =>
    if ¬ available then
      Except.ok ⟨available, [], [], current, []⟩
    else
      Except.ok ⟨false, [LogEvent.errorUnreachable host],
        (current.filter (fun p => p.1 ∉ progress_waiting)).map Prod.fst,
        current, []⟩
  | ApiResult.ok =>
    let logs0 : List LogEvent :=
      if ¬ available then [LogEvent.infoReconnected host] else []
    let st := api.foldl (updateItemsStep progress_waiting)
      ⟨current, [], [], logs0⟩
    Except.ok ⟨true, st.logs, st.notifications, st.current, st.new_sensors⟩

/-- Result of one `update_bridge()` call (hue.py lines 103-114).

`update_bridge` wraps `async_update_items` in a task and `await asyncio.wait`s
on it.  `asyncio.wait` waits for the task to finish but never re-raises the
task's exception, and `update_bridge` falls off its body, so it always resolves
normally (`None`); a propagated exception stays stored in the inner task. -/
structure BridgeCallResult where
  /-- What the inner `async_update_items` task holds. -/
  taskResult : Except Nat UpdateEffects
  /-- Exception raised out of `update_bridge` itself to its awaiters. -/
  raised : Option Nat
deriving Repr

/-- `update_bridge` (hue.py lines 103-114). -/
def update_bridge (apiResult : ApiResult) (api : List SensorItem)
    (available : Bool) (host : String)
    (current : List (String × Option Proxy)) (progress_waiting : List String) :
    BridgeCallResult :=
  ⟨async_update_items apiResult api available host current progress_waiting,
   none⟩

/-- The success-path loop condition under which an api item gets a
notification: allowed type, id already known, id not waiting. -/
def notifies (base : List (String × Option Proxy)) (w : List String)
    (bs : SensorItem) : Bool :=
  decide (bs.type ∈ ALL_BINARY_SENSORS) && (base.lookup bs.id).isSome &&
    decide (bs.id ∉ w)

/-- The observables of `async_update_items` that do not mention caller
identities: everything except the notification list. -/
def updateView (r : Except Nat UpdateEffects) :
    Except Nat (Bool × List LogEvent × List (String × Option Proxy)
      × List (Option Proxy)) :=
  r.map (fun e => (e.available, e.logs, e.current, e.added))

end Hue

namespace CloudIot

/-! ### Model of src/homeassistant/components/cloud/iot.py -/

/-- A message handler: abstracted as a function from a payload to either a
raised exception (numeric code) or a returned value. -/
def Handler : Type := Nat → Except Nat Nat

/-- Log lines emitted by `async_handle_message`. -/
inductive IotLog
  | warnUnhandled (name : String)   -- iot.py line 20
deriving DecidableEq, Repr

/-- Modelled from the spec: the `Registry` class
(`homeassistant.util.decorator`, not under src/) is a dict-like dispatch
table "mapping a string tag to a handler function ... populated at
process-wide initialization and never mutated afterward"; `HANDLERS.get`
is a plain dict lookup returning the handler or `None`.  We model it as an
insertion-ordered association list with `List.lookup`. -/
def Registry : Type := List (String × Handler)

/-- The module-level `HANDLERS` registry of iot.py after the decorators at
module load time ran: exactly `'alexa'` is registered (iot.py line 26); the
handler body (`async_handle_alexa`, an external collaborator) abstract. -/
def HANDLERS (alexaHandler : Handler) : Registry := [("alexa", alexaHandler)]

/-- Observable result of `async_handle_message` (iot.py lines 14-23). -/
structure DispatchResult where
  /-- Name of the handler that was invoked, if any. -/
  invoked : Option String
  /-- Log lines emitted. -/
  logs : List IotLog
  /-- What the call as a whole does: raises `e` or returns a value
  (`none` for Python's `None`). -/
  outcome : Except Nat (Option Nat)

/-- `async_handle_message` (iot.py lines 14-23): look the name up in
`HANDLERS`; on a miss log a warning and return `None`; on a hit delegate to
exactly that handler (whose result or exception becomes the call's). -/
def async_handle_message (handlers : Registry) (handler_name : String)
    (payload : Nat) : DispatchResult :=
  match handlers.lookup handler_name with
  | none => ⟨none, [IotLog.warnUnhandled handler_name], Except.ok none⟩
  | some h =>
    ⟨some handler_name, [],
     match h payload with
     | Except.ok v => Except.ok (some v)
     | Except.error e => Except.error e⟩

end CloudIot

namespace Sched

/-! ### Cooperative-concurrency model of `request_update`
(hue.py lines 71-101).

`request_update` runs on a single asyncio event loop.  Its body is atomic up
to its first `await`: it adds `object_id` to the shared `sensor_progress` set;
then either (a) `progress` is a not-yet-done task and the caller suspends on
it (registering a done-callback, FIFO), (b) `progress` is an already-done
task and `await progress` returns its result immediately without suspending,
or (c) `progress is None`, in which case the caller starts a fresh
`update_bridge()` task, stores it in `progress`, and suspends on it (it is
the first registered awaiter).  When the task finishes, the registered
awaiters are scheduled in registration order — the starting caller (leader)
first, then joiners in arrival order — and the event loop runs them one at a
time.  The leader's continuation (lines 99-100) runs `progress = None` and
`sensor_progress.clear()` with no intervening `await`, in the same scheduler
slot as its resumption.

Events: `arrive oid` is one caller's synchronous execution of the body up to
its first suspension (or return); `complete out` is the in-flight
`update_bridge()` task finishing with outcome `out` (a numeric token: same
value observed by every awaiter); `runNext` is the event loop running the
next scheduled continuation.  The environment chooses the event order, which
over-approximates the orders the real event loop can produce. -/

/-- One `request_update` call instance.  `fid` is the fetch (task) it awaits
or awaited, `isLeader` whether it started that fetch, `result` the outcome
it has been handed (`none` while still suspended). -/
structure Caller where
  oid : Nat
  fid : Nat
  isLeader : Bool
  result : Option Nat
deriving DecidableEq, Repr

/-- Global state: the `progress` variable (by fetch id), the
`sensor_progress` set (insertion-ordered), the number of `update_bridge`
invocations so far (also the next fetch id), the finished fetches with their
outcomes, the event-loop queue of scheduled continuations (caller indices,
FIFO), and all call instances in arrival order. -/
structure SchedState where
  progress : Option Nat
  sensor_progress : List Nat
  fetchCount : Nat
  doneOutcome : List (Nat × Nat)
  ready : List Nat
  callers : List Caller
deriving DecidableEq, Repr

/-- Scheduler events. -/
inductive Ev
  | arrive (oid : Nat)
  | complete (out : Nat)
  | runNext
deriving DecidableEq, Repr

/-- `sensor_progress.add(object_id)`: set insertion. -/
def addWaiter (o : Nat) (l : List Nat) : List Nat :=
  if o ∈ l then l else l ++ [o]

/-- Indices of the callers awaiting fetch `f`, in callback-registration
order (the leader arrived first, joiners in arrival order). -/
def waitersOf (s : SchedState) (f : Nat) : List Nat :=
  (List.range s.callers.length).filter (fun i =>
    match s.callers.get? i with
    | some cl => cl.fid == f
    | none => false)

/-- One scheduler step.  Events that are not enabled leave the state
unchanged. -/
def step (s : SchedState) (e : Ev) : SchedState :=
  match e with
  | Ev.arrive o =>
    let sp := addWaiter o s.sensor_progress
    match s.progress with
    | some f =>
      match s.doneOutcome.lookup f with
      | some out =>
        -- `await progress` on a done future returns its result immediately.
        { s with sensor_progress := sp,
                 callers := s.callers ++ [⟨o, f, false, some out⟩] }
      | none =>
        -- join the in-flight request (hue.py line 95)
        { s with sensor_progress := sp,
                 callers := s.callers ++ [⟨o, f, false, none⟩] }
    | none =>
      -- start a fresh request (hue.py line 97)
      { s with sensor_progress := sp,
               progress := some s.fetchCount,
               fetchCount := s.fetchCount + 1,
               callers := s.callers ++ [⟨o, s.fetchCount, true, none⟩] }
  | Ev.complete out =>
    match s.progress with
    | some f =>
      match s.doneOutcome.lookup f with
      | some _ => s
      | none =>
        -- the in-flight task finishes: schedule its awaiters, FIFO
        { s with doneOutcome := s.doneOutcome ++ [(f, out)],
                 ready := s.ready ++ waitersOf s f }
    | none => s
  | Ev.runNext =>
    match s.ready with
    | [] => s
    | c :: rest =>
      match s.callers.get? c with
      | none => { s with ready := rest }
      | some cl =>
        match s.doneOutcome.lookup cl.fid with
        | none => { s with ready := rest }
        | some out =>
          let cs := s.callers.set c { cl with result := some out }
          if cl.isLeader then
            -- hue.py lines 98-101: leader resumes, then synchronously
            -- `progress = None; sensor_progress.clear(); return result`
            { s with ready := rest, callers := cs,
                     progress := none, sensor_progress := [] }
          else
            -- hue.py line 95: joiner resumes and returns the result
            { s with ready := rest, callers := cs }

/-- Initial state of one `async_setup_entry` closure (hue.py lines 71-72). -/
def init : SchedState := ⟨none, [], 0, [], [], []⟩

/-- Run a trace of events from the initial state. -/
def exec (tr : List Ev) : SchedState := tr.foldl step init

/-- Fetch ids that were started but have not resolved yet. -/
def outstanding (s : SchedState) : List Nat :=
  (List.range s.fetchCount).filter (fun f => (s.doneOutcome.lookup f).isNone)

/-- The leader of fetch `f` has been handed its result (its continuation,
which clears `progress` and `sensor_progress`, has run). -/
def leaderDelivered (s : SchedState) (f : Nat) : Prop :=
  ∃ i cl, s.callers.get? i = some cl ∧ cl.isLeader = true ∧ cl.fid = f ∧
    cl.result ≠ none

/-- Erase the caller identity carried by an event (two traces with the same
erasure differ only in the `object_id` values passed by callers). -/
def evErase : Ev → Ev
  | Ev.arrive _ => Ev.arrive 0
  | e => e

/-- The identity-free view of one caller: the fetch it awaits, its role and
its delivered outcome — everything except its `object_id`. -/
def callerView (cl : Caller) : Nat × Bool × Option Nat :=
  (cl.fid, cl.isLeader, cl.result)

/-- The identity-free view of the coordinator state: the upstream fetches
performed (`fetchCount`), the in-flight marker, the resolved outcomes, the
scheduled continuations and every caller's role and outcome — everything
except the `sensor_progress` contents and the callers' ids. -/
def schedView (s : SchedState) :
    Option Nat × Nat × List (Nat × Nat) × List Nat
      × List (Nat × Bool × Option Nat) :=
  (s.progress, s.fetchCount, s.doneOutcome, s.ready, s.callers.map callerView)

/-- The single-flight scenario trace: `N = 1 + os.length` callers arrive
while no fetch has resolved, the one in-flight fetch resolves with `out`,
and the event loop then runs all scheduled continuations. -/
def burstTrace (o : Nat) (os : List Nat) (out : Nat) : List Ev :=
  (o :: os).map Ev.arrive ++
    Ev.complete out :: List.replicate (os.length + 1) Ev.runNext

/-- Invariant of the coordinator state, preserved by every scheduler step. -/
structure Inv (s : SchedState) : Prop where
  /-- Every caller awaits a fetch that has been started. -/
  callerFid : ∀ cl ∈ s.callers, cl.fid < s.fetchCount
  /-- The in-flight marker refers to a started fetch. -/
  progressLt : ∀ f, s.progress = some f → f < s.fetchCount
  /-- Only started fetches have resolved. -/
  doneLt : ∀ f o, (f, o) ∈ s.doneOutcome → f < s.fetchCount
  /-- A started, unresolved fetch is the one the marker points to. -/
  undoneProgress : ∀ f, f < s.fetchCount → s.doneOutcome.lookup f = none →
    s.progress = some f
  /-- Scheduled continuations belong to callers of resolved fetches. -/
  readyDone : ∀ c ∈ s.ready, ∃ cl, s.callers.get? c = some cl ∧
    (s.doneOutcome.lookup cl.fid).isSome = true
  /-- No continuation is scheduled twice. -/
  readyNodup : s.ready.Nodup
  /-- A scheduled leader is the leader of the fetch the marker points to
  (its cleanup has not run yet). -/
  readyLeaderProgress : ∀ c ∈ s.ready, ∀ cl, s.callers.get? c = some cl →
    cl.isLeader = true → s.progress = some cl.fid
  /-- Each fetch has at most one leader. -/
  leaderUniq : ∀ i j cli clj, s.callers.get? i = some cli →
    s.callers.get? j = some clj → cli.isLeader = true →
    clj.isLeader = true → cli.fid = clj.fid → i = j
  /-- Every joiner joined a fetch started by an earlier caller. -/
  joinerHasLeader : ∀ i cl, s.callers.get? i = some cl →
    cl.isLeader = false → ∃ j clL, j < i ∧ s.callers.get? j = some clL ∧
      clL.isLeader = true ∧ clL.fid = cl.fid
  /-- The in-flight fetch has a leader. -/
  progressLeader : ∀ f, s.progress = some f → ∃ i cl,
    s.callers.get? i = some cl ∧ cl.isLeader = true ∧ cl.fid = f
  /-- A delivered caller's fetch has resolved. -/
  deliveredDone : ∀ cl ∈ s.callers, cl.result ≠ none →
    (s.doneOutcome.lookup cl.fid).isSome = true
  /-- A delivered caller holds exactly its fetch's resolved outcome. -/
  resultMatches : ∀ cl ∈ s.callers, ∀ r, cl.result = some r →
    s.doneOutcome.lookup cl.fid = some r
  /-- Ahead of every scheduled joiner sits its fetch's leader, unless that
  leader has already been delivered. -/
  readyOrder : ∀ k c cl, s.ready.get? k = some c →
    s.callers.get? c = some cl → cl.isLeader = false →
    leaderDelivered s cl.fid ∨ ∃ k2 L clL, k2 < k ∧
      s.ready.get? k2 = some L ∧ s.callers.get? L = some clL ∧
      clL.isLeader = true ∧ clL.fid = cl.fid

end Sched

/-! ## General list helper lemmas -/

theorem lookup_append {α β : Type} [BEq α] (l₁ l₂ : List (α × β)) (a : α) :
    (l₁ ++ l₂).lookup a =
      (match l₁.lookup a with
       | some v => some v
       | none => l₂.lookup a) := by
  induction l₁ with
  | nil => simp [List.lookup]
  | cons p rest ih =>
    cases p with
    | mk k v =>
      by_cases h : a == k
      · simp [List.lookup, h]
      · simp only [List.cons_append, List.lookup, h]
        exact ih

theorem lookup_eq_none_of_forall {α β : Type} [BEq α] [LawfulBEq α]
    (l : List (α × β)) (a : α) (h : ∀ b, (a, b) ∈ l → False) :
    l.lookup a = none := by
  induction l with
  | nil => simp [List.lookup]
  | cons p rest ih =>
    cases p with
    | mk k v =>
      by_cases hk : a == k
      · exact absurd (h v (by simp [eq_of_beq hk])) id
      · simp only [List.lookup, hk]
        exact ih (fun b hb => h b (List.mem_cons_of_mem _ hb))

theorem mem_of_lookup_eq_some {α β : Type} [BEq α] [LawfulBEq α]
    {l : List (α × β)} {a : α} {b : β} (h : l.lookup a = some b) :
    (a, b) ∈ l := by
  induction l with
  | nil => simp [List.lookup] at h
  | cons p rest ih =>
    cases p with
    | mk k v =>
      by_cases hk : a == k
      · simp only [List.lookup, hk] at h
        injection h with h
        subst h
        simp [eq_of_beq hk]
      · simp only [List.lookup, hk] at h
        exact List.mem_cons_of_mem _ (ih h)

theorem lookup_append_some {α β : Type} [BEq α] {l₁ : List (α × β)}
    (l₂ : List (α × β)) {a : α} {v : β} (h : l₁.lookup a = some v) :
    (l₁ ++ l₂).lookup a = some v := by
  rw [lookup_append, h]

theorem lookup_append_none {α β : Type} [BEq α] {l₁ : List (α × β)}
    (l₂ : List (α × β)) {a : α} (h : l₁.lookup a = none) :
    (l₁ ++ l₂).lookup a = l₂.lookup a := by
  rw [lookup_append, h]

theorem length_le_one_of_all_eq {α : Type} (l : List α) (hnd : l.Nodup)
    (h : ∀ a ∈ l, ∀ b ∈ l, a = b) : l.length ≤ 1 := by
  match l with
  | [] => simp
  | [a] => simp
  | a :: b :: rest =>
    exfalso
    have hab : a = b := h a (by simp) b (by simp)
    have := List.nodup_cons.mp hnd
    exact this.1 (by simp [hab])

namespace Hue

/-! ## Theorems about the sequential update logic -/

theorem create_some_of_mem_allowed (s : SensorItem)
    (h : s.type ∈ ALL_BINARY_SENSORS) : (create_binary_sensor s).isSome := by
  simp only [ALL_BINARY_SENSORS, List.mem_cons, List.mem_singleton,
    List.not_mem_nil, or_false] at h
  rcases h with h | h | h | h | h <;>
    simp [create_binary_sensor, h, TYPE_CLIP_GENERICFLAG, TYPE_CLIP_OPENCLOSE,
      TYPE_CLIP_PRESENCE, TYPE_DAYLIGHT, TYPE_ZLL_PRESENCE]

theorem updateItemsStep_allSome (w : List String) (st : LoopState)
    (bs : SensorItem)
    (hc : ∀ kv ∈ st.current, kv.2.isSome)
    (hn : ∀ p ∈ st.new_sensors, p.isSome) :
    (∀ kv ∈ (updateItemsStep w st bs).current, kv.2.isSome) ∧
      (∀ p ∈ (updateItemsStep w st bs).new_sensors, p.isSome) := by
  unfold updateItemsStep
  by_cases h1 : bs.type ∈ ALL_BINARY_SENSORS
  · simp only [h1, if_true]
    by_cases h2 : (st.current.lookup bs.id).isNone
    · simp only [h2, if_true]
      constructor
      · intro kv hkv
        rcases List.mem_append.mp hkv with h | h
        · exact hc kv h
        · simp only [List.mem_singleton] at h
          subst h
          exact create_some_of_mem_allowed bs h1
      · intro p hp
        rcases List.mem_append.mp hp with h | h
        · exact hn p h
        · simp only [List.mem_singleton] at h
          subst h
          exact create_some_of_mem_allowed bs h1
    · simp only [h2, if_false]
      by_cases h3 : bs.id ∉ w
      · simp only [h3, if_true]
        exact ⟨hc, hn⟩
      · simp only [h3, if_false]
        exact ⟨hc, hn⟩
  · simp only [h1, if_false]
    exact ⟨hc, hn⟩

theorem create_none_of_not_mem_allowed (s : SensorItem)
    (h : s.type ∉ ALL_BINARY_SENSORS) : create_binary_sensor s = none := by
  simp only [ALL_BINARY_SENSORS, List.mem_cons, List.mem_singleton,
    List.not_mem_nil, or_false, not_or] at h
  obtain ⟨h1, h2, h3, h4, h5⟩ := h
  simp [create_binary_sensor, h1, h2, h3, h4, h5]

theorem foldl_updateItems_allSome (w : List String) :
    ∀ (api : List SensorItem) (st : LoopState),
    (∀ kv ∈ st.current, kv.2.isSome) →
    (∀ p ∈ st.new_sensors, p.isSome) →
    (∀ kv ∈ (api.foldl (updateItemsStep w) st).current, kv.2.isSome) ∧
      (∀ p ∈ (api.foldl (updateItemsStep w) st).new_sensors, p.isSome)
  | [], _, hc, hn => ⟨hc, hn⟩
  | bs :: rest, st, hc, hn => by
    obtain ⟨hc2, hn2⟩ := updateItemsStep_allSome w st bs hc hn
    simpa using foldl_updateItems_allSome w rest (updateItemsStep w st bs) hc2 hn2

/-- C9.  For each of the five allowed binary-sensor types,
`create_binary_sensor` returns a constructed proxy of the matching class; for
any other type it returns `None`; and the `None` branch is unreachable from
`async_update_items`: on the success path, if every proxy already stored in
`current` is a real (non-`None`) proxy, then every proxy in the updated map
and every newly added proxy is real, because the call site filters on
`ALL_BINARY_SENSORS` before calling the factory. -/
theorem create_binary_sensor_total_at_call_site :
    (∀ s : SensorItem,
      (s.type = TYPE_CLIP_GENERICFLAG →
        create_binary_sensor s = some ⟨ProxyClass.clipGenericFlag, s⟩) ∧
      (s.type = TYPE_CLIP_OPENCLOSE →
        create_binary_sensor s = some ⟨ProxyClass.clipOpenClose, s⟩) ∧
      (s.type = TYPE_CLIP_PRESENCE →
        create_binary_sensor s = some ⟨ProxyClass.clipPresence, s⟩) ∧
      (s.type = TYPE_DAYLIGHT →
        create_binary_sensor s = some ⟨ProxyClass.daylight, s⟩) ∧
      (s.type = TYPE_ZLL_PRESENCE →
        create_binary_sensor s = some ⟨ProxyClass.zllPresence, s⟩) ∧
      (s.type ∉ ALL_BINARY_SENSORS → create_binary_sensor s = none)) ∧
    (∀ (api : List SensorItem) (av : Bool) (host : String)
       (cur : List (String × Option Proxy)) (w : List String)
       (eff : UpdateEffects),
      async_update_items ApiResult.ok api av host cur w = Except.ok eff →
      (∀ kv ∈ cur, kv.2.isSome) →
      (∀ kv ∈ eff.current, kv.2.isSome) ∧ (∀ p ∈ eff.added, p.isSome)) := by
  constructor
  · intro s
    refine ⟨?_, ?_, ?_, ?_, ?_, create_none_of_not_mem_allowed s⟩ <;>
      (intro h;
       simp [create_binary_sensor, h, TYPE_CLIP_GENERICFLAG,
         TYPE_CLIP_OPENCLOSE, TYPE_CLIP_PRESENCE, TYPE_DAYLIGHT,
         TYPE_ZLL_PRESENCE])
  · intro api av host cur w eff heq hc
    simp only [async_update_items] at heq
    injection heq with heq
    obtain ⟨ha, hb⟩ := foldl_updateItems_allSome w api ⟨cur, [], [],
      if ¬ av then [LogEvent.infoReconnected host] else []⟩ hc (by simp)
    subst heq
    exact ⟨ha, hb⟩

/-- Witness for C9 at concrete inputs. -/
theorem create_binary_sensor_total_at_call_site_witness :
    create_binary_sensor ⟨"s1", "Daylight", "n"⟩ =
      some ⟨ProxyClass.daylight, ⟨"s1", "Daylight", "n"⟩⟩ ∧
    create_binary_sensor ⟨"s1", "Bogus", "n"⟩ = none ∧
    (∀ kv ∈ (UpdateEffects.mk true
        [LogEvent.infoAddedSensor "n" "Daylight"]
        []
        [("s1", some ⟨ProxyClass.daylight, ⟨"s1", "Daylight", "n"⟩⟩)]
        [some ⟨ProxyClass.daylight, ⟨"s1", "Daylight", "n"⟩⟩]).current,
      kv.2.isSome) := by
  refine ⟨?_, ?_, ?_⟩
  · exact (create_binary_sensor_total_at_call_site.1 _).2.2.2.1 rfl
  · exact (create_binary_sensor_total_at_call_site.1 _).2.2.2.2.2 (by decide)
  · exact (create_binary_sensor_total_at_call_site.2
      [⟨"s1", "Daylight", "n"⟩] true "h" [] [] _ rfl (by simp)).1

/-- C4 counterexample.  Concrete timeout with registered proxies `A`, `B`,
`C` where `A` and `B` are in the waiter set: the failure path notifies only
`C` — it does not push `async_schedule_update_ha_state` to the waiters,
contrary to the claim that all three receive the notification. -/
theorem failure_notification_skips_waiters_counterexample :
    async_update_items ApiResult.timeoutErr [] true "host"
        [("A", none), ("B", none), ("C", none)] ["A", "B"] =
      Except.ok ⟨false, [LogEvent.errorUnreachable "host"], ["C"],
        [("A", none), ("B", none), ("C", none)], []⟩ := by
  rfl

/-- C4 as amended.  On a fetch failure (timeout or transport error) while the
bridge is available, the coordinator marks the source unavailable, logs the
transition once, and pushes a refresh notification to exactly the known
entities whose identifiers are NOT in the current waiter set; waiters are
skipped (they observe the outcome through their joined request instead). -/
theorem failure_notifies_nonwaiting (r : ApiResult) (api : List SensorItem)
    (host : String) (cur : List (String × Option Proxy)) (w : List String)
    (hr : r = ApiResult.timeoutErr ∨ r = ApiResult.aiohueExc) :
    ∃ eff, async_update_items r api true host cur w = Except.ok eff ∧
      eff.available = false ∧
      eff.logs = [LogEvent.errorUnreachable host] ∧
      eff.notifications = (cur.filter (fun p => p.1 ∉ w)).map Prod.fst ∧
      (∀ x, x ∈ eff.notifications ↔ (∃ v, (x, v) ∈ cur ∧ x ∉ w)) ∧
      eff.current = cur := by
  have hmem : ∀ x, x ∈ (cur.filter (fun p => p.1 ∉ w)).map Prod.fst ↔
      (∃ v, (x, v) ∈ cur ∧ x ∉ w) := by
    intro x
    simp only [List.mem_map, List.mem_filter, decide_eq_true_eq]
    constructor
    · rintro ⟨⟨p1, p2⟩, ⟨hp, hw⟩, rfl⟩
      exact ⟨p2, hp, hw⟩
    · rintro ⟨v, hv, hw⟩
      exact ⟨(x, v), ⟨hv, hw⟩, rfl⟩
  rcases hr with h | h <;> subst h <;>
    refine ⟨⟨false, [LogEvent.errorUnreachable host],
      (cur.filter (fun p => p.1 ∉ w)).map Prod.fst, cur, []⟩,
      ?_, rfl, rfl, rfl, hmem, rfl⟩ <;>
    simp [async_update_items, decide_not]

/-- Witness for the amended C4. -/
theorem failure_notifies_nonwaiting_witness :
    ∃ eff, async_update_items ApiResult.timeoutErr [] true "host"
        [("A", (none : Option Proxy)), ("B", none), ("C", none)]
        ["A", "B"] = Except.ok eff ∧
      eff.available = false ∧
      eff.logs = [LogEvent.errorUnreachable "host"] ∧
      eff.notifications =
        (([("A", (none : Option Proxy)), ("B", none), ("C", none)]).filter
          (fun p => p.1 ∉ ["A", "B"])).map Prod.fst ∧
      (∀ x, x ∈ eff.notifications ↔
        (∃ v, (x, v) ∈ [("A", (none : Option Proxy)), ("B", none),
          ("C", none)] ∧ x ∉ ["A", "B"])) ∧
      eff.current = [("A", (none : Option Proxy)), ("B", none), ("C", none)] :=
  failure_notifies_nonwaiting ApiResult.timeoutErr [] "host"
    [("A", none), ("B", none), ("C", none)] ["A", "B"] (Or.inl rfl)

theorem foldl_updateItems_availLogs (w : List String) :
    ∀ (api : List SensorItem) (st : LoopState),
    ((api.foldl (updateItemsStep w) st).logs.filter
        (fun l => l.isAvailabilityLog))
      = st.logs.filter (fun l => l.isAvailabilityLog)
  | [], _ => rfl
  | bs :: rest, st => by
    rw [List.foldl_cons, foldl_updateItems_availLogs w rest]
    unfold updateItemsStep
    by_cases h1 : bs.type ∈ ALL_BINARY_SENSORS
    · by_cases h2 : ((st.current.lookup bs.id).isNone : Bool)
      · simp [h1, h2, List.filter_append, LogEvent.isAvailabilityLog]
      · by_cases h3 : bs.id ∉ w
        · simp [h1, h2, h3]
        · simp [h1, h2, h3]
    · simp [h1]

theorem foldl_updateItems_notifications (w : List String) :
    ∀ (api : List SensorItem) (st : LoopState)
      (base : List (String × Option Proxy)),
    (api.map SensorItem.id).Nodup →
    (∀ bs ∈ api, st.current.lookup bs.id = base.lookup bs.id) →
    (api.foldl (updateItemsStep w) st).notifications
      = st.notifications ++ ((api.filter (notifies base w)).map SensorItem.id)
  | [], _, _, _, _ => by simp
  | bs :: rest, st, base, hnd, hbase => by
    have hndr : (rest.map SensorItem.id).Nodup := (List.nodup_cons.mp hnd).2
    have hbs : st.current.lookup bs.id = base.lookup bs.id :=
      hbase bs (List.mem_cons_self _ _)
    have hhead : bs.id ∉ rest.map SensorItem.id := by
      simpa using (List.nodup_cons.mp hnd).1
    have hrest0 : ∀ bs2 ∈ rest,
        st.current.lookup bs2.id = base.lookup bs2.id :=
      fun bs2 hbs2 => hbase bs2 (List.mem_cons_of_mem _ hbs2)
    by_cases h1 : bs.type ∈ ALL_BINARY_SENSORS
    · by_cases h2 : ((st.current.lookup bs.id).isNone : Bool)
      · -- new device: created and logged, not notified
        have hstep : updateItemsStep w st bs =
            { st with
              current := st.current ++ [(bs.id, create_binary_sensor bs)],
              new_sensors := st.new_sensors ++ [create_binary_sensor bs],
              logs := st.logs ++ [LogEvent.infoAddedSensor bs.name bs.type] }
            := by
          unfold updateItemsStep
          simp [h1, h2]
        have hbn : (base.lookup bs.id).isSome = false := by
          rw [← hbs]
          simp only [Option.isNone_iff_eq_none] at h2
          simp [h2]
        have hrest : ∀ bs2 ∈ rest,
            (st.current ++ [(bs.id, create_binary_sensor bs)]).lookup bs2.id
              = base.lookup bs2.id := by
          intro bs2 hbs2
          have hne : bs2.id ≠ bs.id := by
            intro hcontra
            exact hhead (hcontra ▸ List.mem_map_of_mem SensorItem.id hbs2)
          have hl2 : ([(bs.id, create_binary_sensor bs)]).lookup bs2.id
              = none := by
            simp [List.lookup, beq_eq_false_iff_ne.mpr hne]
          rw [← hrest0 bs2 hbs2]
          cases hcl : st.current.lookup bs2.id with
          | some v => rw [lookup_append_some _ hcl]
          | none => rw [lookup_append_none _ hcl, hl2]
        rw [List.foldl_cons, hstep,
          foldl_updateItems_notifications w rest
            { st with
              current := st.current ++ [(bs.id, create_binary_sensor bs)],
              new_sensors := st.new_sensors ++ [create_binary_sensor bs],
              logs := st.logs ++ [LogEvent.infoAddedSensor bs.name bs.type] }
            base hndr hrest]
        simp [notifies, hbn, List.filter_cons]
      · by_cases h3 : bs.id ∉ w
        · -- known, not waiting: notified
          have hstep : updateItemsStep w st bs =
              { st with notifications := st.notifications ++ [bs.id] } := by
            unfold updateItemsStep
            simp [h1, h2, h3]
          have hbn : (base.lookup bs.id).isSome = true := by
            rw [← hbs]
            cases hcl : st.current.lookup bs.id with
            | some v => rfl
            | none => rw [hcl] at h2; simp at h2
          rw [List.foldl_cons, hstep,
            foldl_updateItems_notifications w rest
              { st with notifications := st.notifications ++ [bs.id] }
              base hndr hrest0]
          simp [notifies, h1, hbn, h3, List.filter_cons]
        · -- known but waiting: skipped
          have hstep : updateItemsStep w st bs = st := by
            unfold updateItemsStep
            simp [h1, h2, h3]
          simp only [not_not] at h3
          rw [List.foldl_cons, hstep,
            foldl_updateItems_notifications w rest _ base hndr hrest0]
          simp [notifies, h3, List.filter_cons]
    · have hstep : updateItemsStep w st bs = st := by
        unfold updateItemsStep
        simp [h1]
      rw [List.foldl_cons, hstep,
        foldl_updateItems_notifications w rest _ base hndr hrest0]
      simp [notifies, h1, List.filter_cons]

/-- C5 counterexample.  A sensor `s1` registered in the current map and
absent from the waiter set receives NO refresh notification when the fetch
succeeds but the refreshed API response does not contain `s1`: the success
loop iterates over the API response, not over the current map, contrary to
the claim that every registered entity outside the waiter set is notified. -/
theorem success_broadcast_requires_api_presence_counterexample :
    async_update_items ApiResult.ok [] true "host"
        [("s1", some ⟨ProxyClass.daylight, ⟨"s1", "Daylight", "n"⟩⟩)] [] =
      Except.ok ⟨true, [], [],
        [("s1", some ⟨ProxyClass.daylight, ⟨"s1", "Daylight", "n"⟩⟩)], []⟩ :=
  rfl

/-- C5 as amended.  When a fetch resolves successfully (API item ids
distinct, as keys of a dict), exactly the entities that are present in the
current map AND appear in the refreshed API response with an allowed
binary-sensor type AND are absent from the joining waiter set receive
exactly one refresh notification each; entities in the waiter set receive
none via this path, and neither do registered entities missing from the
response. -/
theorem success_broadcast_nonwaiting (api : List SensorItem) (av : Bool)
    (host : String) (cur : List (String × Option Proxy)) (w : List String)
    (hnd : (api.map SensorItem.id).Nodup) :
    ∃ eff, async_update_items ApiResult.ok api av host cur w =
        Except.ok eff ∧
      (∀ x ∈ w, eff.notifications.count x = 0) ∧
      (∀ x, eff.notifications.count x =
        if (∃ bs ∈ api, bs.id = x ∧ bs.type ∈ ALL_BINARY_SENSORS) ∧
            (cur.lookup x).isSome = true ∧ x ∉ w
        then 1 else 0) := by
  have hfold :
      (api.foldl (updateItemsStep w)
        ⟨cur, [], [],
          if ¬ av then [LogEvent.infoReconnected host] else []⟩).notifications
      = (api.filter (notifies cur w)).map SensorItem.id := by
    rw [foldl_updateItems_notifications w api _ cur hnd
      (fun _ _ => rfl)]
    simp
  have hsubnd : ((api.filter (notifies cur w)).map SensorItem.id).Nodup :=
    hnd.sublist ((List.filter_sublist _).map SensorItem.id)
  have hmemiff : ∀ x,
      x ∈ (api.filter (notifies cur w)).map SensorItem.id ↔
      ((∃ bs ∈ api, bs.id = x ∧ bs.type ∈ ALL_BINARY_SENSORS) ∧
        (cur.lookup x).isSome = true ∧ x ∉ w) := by
    intro x
    simp only [List.mem_map, List.mem_filter, notifies, Bool.and_eq_true,
      decide_eq_true_eq]
    constructor
    · rintro ⟨bs, ⟨hbs, ⟨hty, hlook⟩, hw⟩, rfl⟩
      exact ⟨⟨bs, hbs, rfl, hty⟩, hlook, hw⟩
    · rintro ⟨⟨bs, hbs, rfl, hty⟩, hlook, hw⟩
      exact ⟨bs, ⟨hbs, ⟨hty, hlook⟩, hw⟩, rfl⟩
  have hcount : ∀ x,
      ((api.filter (notifies cur w)).map SensorItem.id).count x =
        if (∃ bs ∈ api, bs.id = x ∧ bs.type ∈ ALL_BINARY_SENSORS) ∧
            (cur.lookup x).isSome = true ∧ x ∉ w
        then 1 else 0 := by
    intro x
    by_cases hc : (∃ bs ∈ api, bs.id = x ∧ bs.type ∈ ALL_BINARY_SENSORS) ∧
        (cur.lookup x).isSome = true ∧ x ∉ w
    · rw [if_pos hc]
      exact List.count_eq_one_of_mem hsubnd ((hmemiff x).mpr hc)
    · rw [if_neg hc]
      exact List.count_eq_zero_of_not_mem (fun hmem => hc ((hmemiff x).mp hmem))
  refine ⟨_, rfl, ?_, ?_⟩
  · intro x hxw
    show (api.foldl (updateItemsStep w) _).notifications.count x = 0
    rw [hfold]
    rw [hcount x, if_neg]
    rintro ⟨-, -, hxnw⟩
    exact hxnw hxw
  · intro x
    show (api.foldl (updateItemsStep w) _).notifications.count x = _
    rw [hfold, hcount x]

/-- Witness for the amended C5: sensors `A` (known, joined the request),
`B` (known, did not join), `N` (new) all in the API response; only `B` is
notified, exactly once. -/
theorem success_broadcast_nonwaiting_witness :
    ∃ eff, async_update_items ApiResult.ok
        [⟨"A", "ZLLPresence", "a"⟩, ⟨"B", "Daylight", "b"⟩,
         ⟨"N", "CLIPPresence", "n"⟩] true "host"
        [("A", some ⟨ProxyClass.zllPresence, ⟨"A", "ZLLPresence", "a"⟩⟩),
         ("B", some ⟨ProxyClass.daylight, ⟨"B", "Daylight", "b"⟩⟩)]
        ["A"] = Except.ok eff ∧
      (∀ x ∈ ["A"], eff.notifications.count x = 0) ∧
      (∀ x, eff.notifications.count x =
        if (∃ bs ∈ [(⟨"A", "ZLLPresence", "a"⟩ : SensorItem),
              ⟨"B", "Daylight", "b"⟩, ⟨"N", "CLIPPresence", "n"⟩],
              bs.id = x ∧ bs.type ∈ ALL_BINARY_SENSORS) ∧
            (([("A", some (⟨ProxyClass.zllPresence,
                ⟨"A", "ZLLPresence", "a"⟩⟩ : Proxy)),
               ("B", some ⟨ProxyClass.daylight,
                ⟨"B", "Daylight", "b"⟩⟩)]).lookup x).isSome = true ∧
            x ∉ ["A"]
        then 1 else 0) :=
  success_broadcast_nonwaiting
    [⟨"A", "ZLLPresence", "a"⟩, ⟨"B", "Daylight", "b"⟩,
     ⟨"N", "CLIPPresence", "n"⟩] true "host"
    [("A", some ⟨ProxyClass.zllPresence, ⟨"A", "ZLLPresence", "a"⟩⟩),
     ("B", some ⟨ProxyClass.daylight, ⟨"B", "Daylight", "b"⟩⟩)]
    ["A"] (by decide)

/-- C6.  Availability-transition logging: a fetch failure while
`bridge.available` is `true` sets the flag to `false` and emits exactly one
availability-transition log line; a failure while it is already `false`
emits none (early return); a successful fetch while it is `false` resets it
to `true` with exactly one recovery log line; a successful fetch while it is
already `true` emits no availability-transition log line.  (On the success
path, `Added new Hue binary sensor` info lines may additionally appear for
newly discovered devices; the availability filter isolates the transition
logging the claim is about.) -/
theorem availability_transition_logging (r : ApiResult)
    (api : List SensorItem) (host : String)
    (cur : List (String × Option Proxy)) (w : List String) :
    ((r = ApiResult.timeoutErr ∨ r = ApiResult.aiohueExc) →
      (∃ eff, async_update_items r api true host cur w = Except.ok eff ∧
        eff.available = false ∧
        eff.logs.filter (fun l => l.isAvailabilityLog)
          = [LogEvent.errorUnreachable host]) ∧
      async_update_items r api false host cur w =
        Except.ok ⟨false, [], [], cur, []⟩) ∧
    (r = ApiResult.ok →
      (∃ eff, async_update_items r api false host cur w = Except.ok eff ∧
        eff.available = true ∧
        eff.logs.filter (fun l => l.isAvailabilityLog)
          = [LogEvent.infoReconnected host]) ∧
      (∃ eff, async_update_items r api true host cur w = Except.ok eff ∧
        eff.available = true ∧
        eff.logs.filter (fun l => l.isAvailabilityLog) = [])) := by
  constructor
  · intro hr
    rcases hr with h | h <;> subst h <;>
      exact ⟨⟨_, rfl, rfl, rfl⟩, rfl⟩
  · intro hr
    subst hr
    constructor
    · refine ⟨_, rfl, rfl, ?_⟩
      rw [foldl_updateItems_availLogs]
      simp [LogEvent.isAvailabilityLog]
    · refine ⟨_, rfl, rfl, ?_⟩
      rw [foldl_updateItems_availLogs]
      simp

/-- Witness for C6 at concrete inputs. -/
theorem availability_transition_logging_witness :
    (∃ eff, async_update_items ApiResult.timeoutErr [] true "host"
        [("A", (none : Option Proxy))] [] = Except.ok eff ∧
      eff.available = false ∧
      eff.logs.filter (fun l => l.isAvailabilityLog)
        = [LogEvent.errorUnreachable "host"]) ∧
    (∃ eff, async_update_items ApiResult.ok [] false "host"
        [("A", (none : Option Proxy))] [] = Except.ok eff ∧
      eff.available = true ∧
      eff.logs.filter (fun l => l.isAvailabilityLog)
        = [LogEvent.infoReconnected "host"]) :=
  ⟨((availability_transition_logging ApiResult.timeoutErr [] "host"
      [("A", none)] []).1 (Or.inl rfl)).1,
   ((availability_transition_logging ApiResult.ok [] "host"
      [("A", none)] []).2 rfl).1⟩

/-- C7 counterexample.  A collaborator exception that is not one of the two
caught upstream-unreachable conditions does NOT propagate out of the
coordinator to `request_update` callers: it stays stored in the inner task
(`taskResult`), and `update_bridge` — whose `await asyncio.wait(tasks)`
never re-raises task exceptions — resolves normally (`raised = none`), so
every waiter receives a normal completion. -/
theorem other_exception_absorbed_counterexample :
    update_bridge (ApiResult.otherExc 42) [] true "host" [] [] =
      ⟨Except.error 42, none⟩ := rfl

/-- C7 as amended.  `async_update_items` catches exactly the
upstream-unreachable conditions (`asyncio.TimeoutError` and
`aiohue.AiohueException`), converting them into an availability transition:
it completes normally for them.  Every other exception propagates unmodified
out of `async_update_items`; but `update_bridge` awaits the inner task with
`asyncio.wait`, which never re-raises, so `update_bridge` itself never
raises and callers of `request_update` never observe a raised error — from
the caught conditions or from any other exception. -/
theorem exception_policy (r : ApiResult) (api : List SensorItem)
    (host : String) (cur : List (String × Option Proxy)) (w : List String)
    (av : Bool) :
    ((r = ApiResult.timeoutErr ∨ r = ApiResult.aiohueExc) →
      ∃ eff, async_update_items r api av host cur w = Except.ok eff) ∧
    (∀ e, async_update_items (ApiResult.otherExc e) api av host cur w =
      Except.error e) ∧
    (update_bridge r api av host cur w).raised = none ∧
    (update_bridge r api av host cur w).taskResult =
      async_update_items r api av host cur w := by
  refine ⟨?_, fun _ => rfl, rfl, rfl⟩
  intro hr
  rcases hr with h | h <;> subst h <;> cases av <;> exact ⟨_, rfl⟩

/-- Witness for the amended C7. -/
theorem exception_policy_witness :
    (∃ eff, async_update_items ApiResult.timeoutErr [] true "host" [] [] =
      Except.ok eff) ∧
    async_update_items (ApiResult.otherExc 42) [] true "host" [] [] =
      Except.error 42 ∧
    (update_bridge (ApiResult.otherExc 42) [] true "host" [] []).raised =
      none :=
  ⟨(exception_policy ApiResult.timeoutErr [] "host" [] [] true).1
      (Or.inl rfl),
   (exception_policy (ApiResult.otherExc 42) [] "host" [] [] true).2.1 42,
   (exception_policy (ApiResult.otherExc 42) [] "host" [] [] true).2.2.1⟩

end Hue

namespace CloudIot

/-- C10.  For every `handler_name` not present in the registry,
`async_handle_message` logs one warning and returns `None` without invoking
any handler and without raising; for a registered name it invokes exactly
the registered handler (whose outcome, return or raise, becomes the
call's).  In the concrete `HANDLERS` registry of iot.py only `'alexa'` is
registered, so every other name takes the warning path. -/
theorem unknown_handler_dispatch :
    (∀ (reg : Registry) (name : String) (p : Nat),
      reg.lookup name = none →
      async_handle_message reg name p =
        ⟨none, [IotLog.warnUnhandled name], Except.ok none⟩) ∧
    (∀ (reg : Registry) (name : String) (h : Handler) (p : Nat),
      reg.lookup name = some h →
      (async_handle_message reg name p).invoked = some name ∧
      (async_handle_message reg name p).logs = [] ∧
      (async_handle_message reg name p).outcome =
        (match h p with
         | Except.ok v => Except.ok (some v)
         | Except.error e => Except.error e)) ∧
    (∀ (h : Handler) (name : String), name ≠ "alexa" →
      (HANDLERS h).lookup name = none) := by
  refine ⟨?_, ?_, ?_⟩
  · intro reg name p hl
    simp [async_handle_message, hl]
  · intro reg name h p hl
    simp [async_handle_message, hl]
  · intro h name hne
    simp [HANDLERS, List.lookup, beq_eq_false_iff_ne.mpr hne]

/-- Witness for C10 with a concrete registry (only `'alexa'`, whose handler
returns its payload) and the unregistered name `'google_assistant'`. -/
theorem unknown_handler_dispatch_witness :
    async_handle_message (HANDLERS (fun p => Except.ok p))
        "google_assistant" 3 =
      ⟨none, [IotLog.warnUnhandled "google_assistant"], Except.ok none⟩ ∧
    (async_handle_message (HANDLERS (fun p => Except.ok p)) "alexa" 3).invoked
      = some "alexa" ∧
    (HANDLERS (fun p => Except.ok p)).lookup "google_assistant" = none := by
  have h3 : (HANDLERS (fun p => Except.ok p)).lookup "google_assistant"
      = none :=
    unknown_handler_dispatch.2.2 (fun p => Except.ok p) "google_assistant"
      (by decide)
  refine ⟨unknown_handler_dispatch.1 _ _ 3 h3, ?_, h3⟩
  exact (unknown_handler_dispatch.2.1 (HANDLERS (fun p => Except.ok p))
    "alexa" (fun p => Except.ok p) 3 rfl).1

end CloudIot

namespace Hue

theorem foldl_updateItems_view (w w2 : List String) :
    ∀ (api : List SensorItem) (st st2 : LoopState),
    st.current = st2.current → st.new_sensors = st2.new_sensors →
    st.logs = st2.logs →
    (api.foldl (updateItemsStep w) st).current
        = (api.foldl (updateItemsStep w2) st2).current ∧
      (api.foldl (updateItemsStep w) st).new_sensors
        = (api.foldl (updateItemsStep w2) st2).new_sensors ∧
      (api.foldl (updateItemsStep w) st).logs
        = (api.foldl (updateItemsStep w2) st2).logs
  | [], _, _, hc, hn, hl => ⟨hc, hn, hl⟩
  | bs :: rest, st, st2, hc, hn, hl => by
    rw [List.foldl_cons, List.foldl_cons]
    apply foldl_updateItems_view w w2 rest <;>
      · unfold updateItemsStep
        rw [hc]
        by_cases h1 : bs.type ∈ ALL_BINARY_SENSORS
        · by_cases h2 : ((st2.current.lookup bs.id).isNone : Bool)
          · simp [h1, h2, hc, hn, hl]
          · by_cases h3 : bs.id ∉ w <;> by_cases h4 : bs.id ∉ w2 <;>
              simp [h1, h2, h3, h4, hc, hn, hl]
        · simp [h1, hc, hn, hl]

end Hue

namespace Sched

/-! ## Theorems about the request coalescer -/

theorem step_arrive_join (s : SchedState) (o f : Nat)
    (hpr : s.progress = some f) (hdo : s.doneOutcome.lookup f = none) :
    step s (Ev.arrive o) =
      { s with sensor_progress := addWaiter o s.sensor_progress,
               callers := s.callers ++ [⟨o, f, false, none⟩] } := by
  simp [step, hpr, hdo]

theorem step_arrive_done (s : SchedState) (o f out : Nat)
    (hpr : s.progress = some f) (hdo : s.doneOutcome.lookup f = some out) :
    step s (Ev.arrive o) =
      { s with sensor_progress := addWaiter o s.sensor_progress,
               callers := s.callers ++ [⟨o, f, false, some out⟩] } := by
  simp [step, hpr, hdo]

theorem step_arrive_fresh (s : SchedState) (o : Nat)
    (hpr : s.progress = none) :
    step s (Ev.arrive o) =
      { s with sensor_progress := addWaiter o s.sensor_progress,
               progress := some s.fetchCount,
               fetchCount := s.fetchCount + 1,
               callers := s.callers ++ [⟨o, s.fetchCount, true, none⟩] } := by
  simp [step, hpr]

theorem step_complete_busy (s : SchedState) (out f : Nat)
    (hpr : s.progress = some f) (hdo : s.doneOutcome.lookup f = none) :
    step s (Ev.complete out) =
      { s with doneOutcome := s.doneOutcome ++ [(f, out)],
               ready := s.ready ++ waitersOf s f } := by
  simp [step, hpr, hdo]

theorem step_complete_already (s : SchedState) (out f v : Nat)
    (hpr : s.progress = some f) (hdo : s.doneOutcome.lookup f = some v) :
    step s (Ev.complete out) = s := by
  simp [step, hpr, hdo]

theorem step_complete_idle (s : SchedState) (out : Nat)
    (hpr : s.progress = none) :
    step s (Ev.complete out) = s := by
  simp [step, hpr]

theorem step_runNext_nil (s : SchedState) (hrd : s.ready = []) :
    step s Ev.runNext = s := by
  simp [step, hrd]

theorem step_runNext_leader (s : SchedState) (c : Nat) (rest : List Nat)
    (cl : Caller) (out : Nat) (hrd : s.ready = c :: rest)
    (hcl : s.callers.get? c = some cl)
    (hdo : s.doneOutcome.lookup cl.fid = some out)
    (hld : cl.isLeader = true) :
    step s Ev.runNext =
      { s with ready := rest,
               callers := s.callers.set c { cl with result := some out },
               progress := none, sensor_progress := [] } := by
  have hcl2 : s.callers[c]? = some cl := by
    rw [← List.get?_eq_getElem?]; exact hcl
  simp [step, hrd, hcl2, hdo, hld]

theorem step_runNext_joiner (s : SchedState) (c : Nat) (rest : List Nat)
    (cl : Caller) (out : Nat) (hrd : s.ready = c :: rest)
    (hcl : s.callers.get? c = some cl)
    (hdo : s.doneOutcome.lookup cl.fid = some out)
    (hld : cl.isLeader = false) :
    step s Ev.runNext =
      { s with ready := rest,
               callers := s.callers.set c { cl with result := some out } } := by
  have hcl2 : s.callers[c]? = some cl := by
    rw [← List.get?_eq_getElem?]; exact hcl
  simp [step, hrd, hcl2, hdo, hld]

theorem step_runNext_invalid (s : SchedState) (c : Nat) (rest : List Nat)
    (hrd : s.ready = c :: rest) (hcl : s.callers.get? c = none) :
    step s Ev.runNext = { s with ready := rest } := by
  have hcl2 : s.callers[c]? = none := by
    rw [← List.get?_eq_getElem?]; exact hcl
  simp [step, hrd, hcl2]

theorem step_runNext_undone (s : SchedState) (c : Nat) (rest : List Nat)
    (cl : Caller) (hrd : s.ready = c :: rest)
    (hcl : s.callers.get? c = some cl)
    (hdo : s.doneOutcome.lookup cl.fid = none) :
    step s Ev.runNext = { s with ready := rest } := by
  have hcl2 : s.callers[c]? = some cl := by
    rw [← List.get?_eq_getElem?]; exact hcl
  simp [step, hrd, hcl2, hdo]

theorem exec_append (tr : List Ev) (e : Ev) :
    exec (tr ++ [e]) = step (exec tr) e := by
  unfold exec
  rw [List.foldl_append]
  rfl

theorem callersView_get {s t : SchedState}
    (h : s.callers.map callerView = t.callers.map callerView) (i : Nat) :
    (s.callers.get? i).map callerView = (t.callers.get? i).map callerView := by
  rw [← List.get?_map, ← List.get?_map, h]

theorem waitersOf_view {s t : SchedState}
    (h : s.callers.map callerView = t.callers.map callerView) (f : Nat) :
    waitersOf s f = waitersOf t f := by
  unfold waitersOf
  have hlen : s.callers.length = t.callers.length := by
    simpa using congrArg List.length h
  rw [hlen]
  apply List.filter_congr
  intro i _
  have hg := callersView_get h i
  cases hs : s.callers.get? i with
  | none =>
    cases ht : t.callers.get? i with
    | none => rfl
    | some cl2 => rw [hs, ht] at hg; simp at hg
  | some cl =>
    cases ht : t.callers.get? i with
    | none => rw [hs, ht] at hg; simp at hg
    | some cl2 =>
      rw [hs, ht] at hg
      simp only [Option.map_some', Option.some.injEq, callerView,
        Prod.mk.injEq] at hg
      simp [hg.1]

theorem schedView_step {s t : SchedState} {e e2 : Ev}
    (hv : schedView s = schedView t) (he : evErase e = evErase e2) :
    schedView (step s e) = schedView (step t e2) := by
  obtain ⟨hp, hfc, hdone, hready, hcal⟩ :
      s.progress = t.progress ∧ s.fetchCount = t.fetchCount ∧
      s.doneOutcome = t.doneOutcome ∧ s.ready = t.ready ∧
      s.callers.map callerView = t.callers.map callerView := by
    unfold schedView at hv
    exact ⟨congrArg (fun x => x.1) hv, congrArg (fun x => x.2.1) hv,
      congrArg (fun x => x.2.2.1) hv, congrArg (fun x => x.2.2.2.1) hv,
      congrArg (fun x => x.2.2.2.2) hv⟩
  cases e with
  | arrive o =>
    cases e2 with
    | arrive o2 =>
      cases hpr : s.progress with
      | some f =>
        have hpr2 : t.progress = some f := hp ▸ hpr
        cases hdo : s.doneOutcome.lookup f with
        | some out =>
          have hdo2 : t.doneOutcome.lookup f = some out := hdone ▸ hdo
          rw [step_arrive_done s o f out hpr hdo,
            step_arrive_done t o2 f out hpr2 hdo2]
          simp [schedView, hp, hfc, hdone, hready, hcal, callerView]
        | none =>
          have hdo2 : t.doneOutcome.lookup f = none := hdone ▸ hdo
          rw [step_arrive_join s o f hpr hdo,
            step_arrive_join t o2 f hpr2 hdo2]
          simp [schedView, hp, hfc, hdone, hready, hcal, callerView]
      | none =>
        have hpr2 : t.progress = none := hp ▸ hpr
        rw [step_arrive_fresh s o hpr, step_arrive_fresh t o2 hpr2]
        simp [schedView, hp, hfc, hdone, hready, hcal, callerView]
    | complete _ => simp [evErase] at he
    | runNext => simp [evErase] at he
  | complete out =>
    cases e2 with
    | arrive _ => simp [evErase] at he
    | complete out2 =>
      have hout : out = out2 := by simpa [evErase] using he
      subst hout
      cases hpr : s.progress with
      | some f =>
        have hpr2 : t.progress = some f := hp ▸ hpr
        cases hdo : s.doneOutcome.lookup f with
        | some v =>
          have hdo2 : t.doneOutcome.lookup f = some v := hdone ▸ hdo
          rw [step_complete_already s out f v hpr hdo,
            step_complete_already t out f v hpr2 hdo2]
          exact hv
        | none =>
          have hdo2 : t.doneOutcome.lookup f = none := hdone ▸ hdo
          rw [step_complete_busy s out f hpr hdo,
            step_complete_busy t out f hpr2 hdo2]
          simp [schedView, hp, hfc, hdone, hready, hcal,
            waitersOf_view hcal f]
      | none =>
        have hpr2 : t.progress = none := hp ▸ hpr
        rw [step_complete_idle s out hpr, step_complete_idle t out hpr2]
        exact hv
    | runNext => simp [evErase] at he
  | runNext =>
    cases e2 with
    | arrive _ => simp [evErase] at he
    | complete _ => simp [evErase] at he
    | runNext =>
      cases hrd : s.ready with
      | nil =>
        have hrd2 : t.ready = [] := hready ▸ hrd
        rw [step_runNext_nil s hrd, step_runNext_nil t hrd2]
        exact hv
      | cons c rest =>
        have hrd2 : t.ready = c :: rest := hready ▸ hrd
        have hg := callersView_get hcal c
        cases hs : s.callers.get? c with
        | none =>
          have ht : t.callers.get? c = none := by
            rw [hs] at hg
            cases htc : t.callers.get? c with
            | none => rfl
            | some cl2 => rw [htc] at hg; simp at hg
          rw [step_runNext_invalid s c rest hrd hs,
            step_runNext_invalid t c rest hrd2 ht]
          simp [schedView, hp, hfc, hdone, hcal]
        | some cl =>
          have hts : ∃ cl2, t.callers.get? c = some cl2 ∧
              callerView cl = callerView cl2 := by
            rw [hs] at hg
            cases htc : t.callers.get? c with
            | none => rw [htc] at hg; simp at hg
            | some cl2 =>
              rw [htc] at hg
              simp only [Option.map_some', Option.some.injEq] at hg
              exact ⟨cl2, rfl, hg⟩
          obtain ⟨cl2, ht, hgv⟩ := hts
          have hfid : cl.fid = cl2.fid := by
            simpa [callerView, Prod.mk.injEq] using
              congrArg (fun x => x.1) hgv
          have hlead : cl.isLeader = cl2.isLeader := by
            simpa [callerView, Prod.mk.injEq] using
              congrArg (fun x => x.2.1) hgv
          cases hdo : s.doneOutcome.lookup cl.fid with
          | none =>
            have hdo2 : t.doneOutcome.lookup cl2.fid = none := by
              rw [← hfid, ← hdone]; exact hdo
            rw [step_runNext_undone s c rest cl hrd hs hdo,
              step_runNext_undone t c rest cl2 hrd2 ht hdo2]
            simp [schedView, hp, hfc, hdone, hcal]
          | some out =>
            have hdo2 : t.doneOutcome.lookup cl2.fid = some out := by
              rw [← hfid, ← hdone]; exact hdo
            have hset : (s.callers.set c { cl with result := some out }).map
                  callerView
                = (t.callers.set c { cl2 with result := some out }).map
                  callerView := by
              rw [List.map_set, List.map_set, hcal]
              have : callerView { cl with result := some out }
                  = callerView { cl2 with result := some out } := by
                simp [callerView, hfid, hlead]
              rw [this]
            cases hld : cl.isLeader with
            | true =>
              rw [step_runNext_leader s c rest cl out hrd hs hdo hld,
                step_runNext_leader t c rest cl2 out hrd2 ht hdo2
                  (hlead ▸ hld)]
              simp [schedView, hp, hfc, hdone, hset]
            | false =>
              rw [step_runNext_joiner s c rest cl out hrd hs hdo hld,
                step_runNext_joiner t c rest cl2 out hrd2 ht hdo2
                  (hlead ▸ hld)]
              simp [schedView, hp, hfc, hdone, hset]

theorem schedView_foldl :
    ∀ (tr tr2 : List Ev) (s t : SchedState),
    tr.map evErase = tr2.map evErase → schedView s = schedView t →
    schedView (tr.foldl step s) = schedView (tr2.foldl step t)
  | [], tr2, s, t, he, hv => by
    have : tr2 = [] := by
      simpa using List.map_eq_nil_iff.mp he.symm
    subst this
    exact hv
  | e :: rest, tr2, s, t, he, hv => by
    cases tr2 with
    | nil => simp at he
    | cons e2 rest2 =>
      simp only [List.map_cons, List.cons.injEq] at he
      rw [List.foldl_cons, List.foldl_cons]
      exact schedView_foldl rest rest2 _ _ he.2 (schedView_step hv he.1)

/-- C8.  Caller-identity noninterference: the `object_id` passed to
`request_update` is used only for waiter-set bookkeeping.  For any two
executions whose event traces differ only in the `object_id` values carried
by arrivals, all identity-free observables coincide: the number of
`update_bridge` invocations, the in-flight marker, the resolved outcomes,
the scheduled continuations and every caller's role and returned outcome.
Likewise, `async_update_items` run with different waiter sets produces the
same availability flag, logs, updated map and added devices (that is, the
same bridge data and fetch outcome) — the identifiers filter only the
notification list, never what gets refreshed. -/
theorem caller_identity_noninterference :
    (∀ (tr tr2 : List Ev), tr.map evErase = tr2.map evErase →
      schedView (exec tr) = schedView (exec tr2)) ∧
    (∀ (r : Hue.ApiResult) (api : List Hue.SensorItem) (av : Bool)
       (host : String) (cur : List (String × Option Hue.Proxy))
       (w w2 : List String),
      Hue.updateView (Hue.async_update_items r api av host cur w) =
        Hue.updateView (Hue.async_update_items r api av host cur w2)) := by
  constructor
  · intro tr tr2 he
    exact schedView_foldl tr tr2 init init he rfl
  · intro r api av host cur w w2
    cases r with
    | otherExc e => rfl
    | timeoutErr => cases av <;> rfl
    | aiohueExc => cases av <;> rfl
    | ok =>
      obtain ⟨hc, hn, hl⟩ := Hue.foldl_updateItems_view w w2 api
        ⟨cur, [], [], if ¬ av then [Hue.LogEvent.infoReconnected host] else []⟩
        ⟨cur, [], [], if ¬ av then [Hue.LogEvent.infoReconnected host] else []⟩
        rfl rfl rfl
      simp only [Hue.async_update_items, Hue.updateView, Except.map]
      rw [hc, hn, hl]

theorem get?_set_self {α : Type} {l : List α} {i : Nat} {a : α}
    (h : i < l.length) : (l.set i a).get? i = some a := by
  rw [List.get?_set_eq]
  simp [h]

theorem get?_concat_cases {α : Type} {l : List α} {a x : α} {i : Nat}
    (h : (l ++ [a]).get? i = some x) :
    (i < l.length ∧ l.get? i = some x) ∨ (i = l.length ∧ x = a) := by
  rcases Nat.lt_trichotomy i l.length with hlt | heq | hgt
  · exact Or.inl ⟨hlt, by rw [← List.get?_append hlt]; exact h⟩
  · subst heq
    rw [List.get?_concat_length] at h
    injection h with h
    exact Or.inr ⟨rfl, h.symm⟩
  · exfalso
    rw [List.get?_eq_none.mpr (by simp; omega)] at h
    exact Option.noConfusion h

theorem lt_length_of_get?_eq_some {α : Type} {l : List α} {i : Nat} {a : α}
    (h : l.get? i = some a) : i < l.length :=
  (List.get?_eq_some.mp h).1

theorem mem_waitersOf {s : SchedState} {f c : Nat} :
    c ∈ waitersOf s f ↔ ∃ cl, s.callers.get? c = some cl ∧ cl.fid = f := by
  unfold waitersOf
  rw [List.mem_filter, List.mem_range]
  constructor
  · rintro ⟨hc, hp⟩
    cases hg : s.callers.get? c with
    | none => rw [hg] at hp; simp at hp
    | some cl =>
      rw [hg] at hp
      exact ⟨cl, rfl, by simpa using hp⟩
  · rintro ⟨cl, hg, hf⟩
    refine ⟨lt_length_of_get?_eq_some hg, ?_⟩
    rw [hg]
    simpa using hf

theorem waitersOf_pairwise (s : SchedState) (f : Nat) :
    (waitersOf s f).Pairwise (· < ·) :=
  (List.pairwise_lt_range _).filter _

theorem waitersOf_nodup (s : SchedState) (f : Nat) :
    (waitersOf s f).Nodup :=
  (List.nodup_range _).filter _

theorem leaderDelivered_append {s s2 : SchedState} {f : Nat}
    {l : List Caller} (h : s2.callers = s.callers ++ l)
    (hld : leaderDelivered s f) : leaderDelivered s2 f := by
  obtain ⟨i, cl, hg, h1, h2, h3⟩ := hld
  exact ⟨i, cl,
    by rw [h, List.get?_append (lt_length_of_get?_eq_some hg)]; exact hg,
    h1, h2, h3⟩

theorem leaderDelivered_set {s s2 : SchedState} {f c : Nat} {cl : Caller}
    {out : Nat} (hget : s.callers.get? c = some cl)
    (h : s2.callers = s.callers.set c { cl with result := some out })
    (hld : leaderDelivered s f) : leaderDelivered s2 f := by
  obtain ⟨i, cl2, hg, h1, h2, h3⟩ := hld
  by_cases hic : i = c
  · subst hic
    have hcl : cl2 = cl := by
      rw [hg] at hget
      injection hget with hh
    subst hcl
    refine ⟨i, { cl2 with result := some out }, ?_, h1, h2, by simp⟩
    rw [h]
    exact get?_set_self (lt_length_of_get?_eq_some hg)
  · refine ⟨i, cl2, ?_, h1, h2, h3⟩
    rw [h, List.get?_set_ne _ _ (fun hh => hic hh.symm)]
    exact hg

theorem inv_arrive (s : SchedState) (o : Nat) (hInv : Inv s) :
    Inv (step s (Ev.arrive o)) := by
  have hlift : ∀ {c : Nat} {cl : Caller} (nc : Caller),
      s.callers.get? c = some cl → (s.callers ++ [nc]).get? c = some cl :=
    fun nc h => by
      rw [List.get?_append (lt_length_of_get?_eq_some h)]; exact h
  cases hpr : s.progress with
  | none =>
    rw [step_arrive_fresh s o hpr]
    refine
      { callerFid := ?_, progressLt := ?_, doneLt := ?_, undoneProgress := ?_,
        readyDone := ?_, readyNodup := hInv.readyNodup,
        readyLeaderProgress := ?_, leaderUniq := ?_, joinerHasLeader := ?_,
        progressLeader := ?_, deliveredDone := ?_, resultMatches := ?_,
        readyOrder := ?_ }
    · intro cl hcl
      rcases List.mem_append.mp hcl with h | h
      · exact Nat.lt_succ_of_lt (hInv.callerFid cl h)
      · simp only [List.mem_singleton] at h
        subst h
        exact Nat.lt_succ_self _
    · intro f hf
      injection hf with hf
      show f < s.fetchCount + 1
      omega
    · intro f o2 hf
      exact Nat.lt_succ_of_lt (hInv.doneLt f o2 hf)
    · intro f hf hlook
      rcases Nat.lt_succ_iff_lt_or_eq.mp hf with hlt | heq
      · exact absurd (hInv.undoneProgress f hlt hlook) (by rw [hpr]; simp)
      · subst heq
        rfl
    · intro c hc
      obtain ⟨cl, hg, hd⟩ := hInv.readyDone c hc
      exact ⟨cl, hlift _ hg, hd⟩
    · intro c hc cl hg hld
      rcases get?_concat_cases hg with ⟨hlt, hg2⟩ | ⟨heq, _⟩
      · exact absurd (hInv.readyLeaderProgress c hc cl hg2 hld)
          (by rw [hpr]; simp)
      · obtain ⟨cl2, hg2, _⟩ := hInv.readyDone c hc
        exact absurd (lt_length_of_get?_eq_some hg2) (by omega)
    · intro i j cli clj hgi hgj hli hlj hf
      rcases get?_concat_cases hgi with ⟨hi, hgi2⟩ | ⟨hi, hci⟩ <;>
        rcases get?_concat_cases hgj with ⟨hj, hgj2⟩ | ⟨hj, hcj⟩
      · exact hInv.leaderUniq i j cli clj hgi2 hgj2 hli hlj hf
      · exfalso
        rw [hcj] at hf
        simp only at hf
        have := hInv.callerFid cli (List.get?_mem hgi2)
        omega
      · exfalso
        rw [hci] at hf
        simp only at hf
        have := hInv.callerFid clj (List.get?_mem hgj2)
        omega
      · omega
    · intro i cl hg hld
      rcases get?_concat_cases hg with ⟨hi, hg2⟩ | ⟨hi, hci⟩
      · obtain ⟨j, clL, hj, hgL, hl1, hl2⟩ :=
          hInv.joinerHasLeader i cl hg2 hld
        exact ⟨j, clL, hj, hlift _ hgL, hl1, hl2⟩
      · exfalso
        rw [hci] at hld
        simp at hld
    · intro f hf
      injection hf with hf
      subst hf
      exact ⟨s.callers.length, ⟨o, s.fetchCount, true, none⟩,
        List.get?_concat_length _ _, rfl, rfl⟩
    · intro cl hcl hres
      rcases List.mem_append.mp hcl with h | h
      · exact hInv.deliveredDone cl h hres
      · simp only [List.mem_singleton] at h
        subst h
        simp at hres
    · intro cl hcl r hres
      rcases List.mem_append.mp hcl with h | h
      · exact hInv.resultMatches cl h r hres
      · simp only [List.mem_singleton] at h
        subst h
        simp at hres
    · intro k c cl hk hg hld
      have hmem : c ∈ s.ready := List.get?_mem hk
      obtain ⟨cl0, hg0, _⟩ := hInv.readyDone c hmem
      have hgold : s.callers.get? c = some cl := by
        rw [List.get?_append (lt_length_of_get?_eq_some hg0)] at hg
        exact hg
      rcases hInv.readyOrder k c cl hk hgold hld with h |
        ⟨k2, L, clL, hk2, hkL, hgL, hl1, hl2⟩
      · exact Or.inl (leaderDelivered_append rfl h)
      · exact Or.inr ⟨k2, L, clL, hk2, hkL, hlift _ hgL, hl1, hl2⟩
  | some f =>
    have hjoin : ∀ (res : Option Nat),
        (∀ r, res = some r → s.doneOutcome.lookup f = some r) →
        Inv { s with sensor_progress := addWaiter o s.sensor_progress,
                     callers := s.callers ++ [⟨o, f, false, res⟩] } := by
      intro res hres
      refine
        { callerFid := ?_, progressLt := hInv.progressLt,
          doneLt := hInv.doneLt, undoneProgress := hInv.undoneProgress,
          readyDone := ?_, readyNodup := hInv.readyNodup,
          readyLeaderProgress := ?_, leaderUniq := ?_,
          joinerHasLeader := ?_, progressLeader := ?_, deliveredDone := ?_,
          resultMatches := ?_, readyOrder := ?_ }
      · intro cl hcl
        rcases List.mem_append.mp hcl with h | h
        · exact hInv.callerFid cl h
        · simp only [List.mem_singleton] at h
          subst h
          exact hInv.progressLt f hpr
      · intro c hc
        obtain ⟨cl, hg, hd⟩ := hInv.readyDone c hc
        exact ⟨cl, hlift _ hg, hd⟩
      · intro c hc cl hg hld
        rcases get?_concat_cases hg with ⟨hlt, hg2⟩ | ⟨heq, _⟩
        · exact hInv.readyLeaderProgress c hc cl hg2 hld
        · obtain ⟨cl2, hg2, _⟩ := hInv.readyDone c hc
          exact absurd (lt_length_of_get?_eq_some hg2) (by omega)
      · intro i j cli clj hgi hgj hli hlj hfid
        rcases get?_concat_cases hgi with ⟨hi, hgi2⟩ | ⟨hi, hci⟩ <;>
          rcases get?_concat_cases hgj with ⟨hj, hgj2⟩ | ⟨hj, hcj⟩
        · exact hInv.leaderUniq i j cli clj hgi2 hgj2 hli hlj hfid
        · exfalso
          rw [hcj] at hlj
          simp at hlj
        · exfalso
          rw [hci] at hli
          simp at hli
        · omega
      · intro i cl hg hld
        rcases get?_concat_cases hg with ⟨hi, hg2⟩ | ⟨hi, hci⟩
        · obtain ⟨j, clL, hj, hgL, hl1, hl2⟩ :=
            hInv.joinerHasLeader i cl hg2 hld
          exact ⟨j, clL, hj, hlift _ hgL, hl1, hl2⟩
        · obtain ⟨j, clL, hgL, hl1, hl2⟩ := hInv.progressLeader f hpr
          refine ⟨j, clL, ?_, hlift _ hgL, hl1, ?_⟩
          · rw [hi]
            exact lt_length_of_get?_eq_some hgL
          · rw [hci]
            exact hl2
      · intro f2 hf2
        obtain ⟨j, clL, hgL, hl1, hl2⟩ := hInv.progressLeader f2 hf2
        exact ⟨j, clL, hlift _ hgL, hl1, hl2⟩
      · intro cl hcl hr
        rcases List.mem_append.mp hcl with h | h
        · exact hInv.deliveredDone cl h hr
        · simp only [List.mem_singleton] at h
          subst h
          simp only at hr
          cases hres2 : res with
          | none => rw [hres2] at hr; simp at hr
          | some r => simp only [hres r hres2, Option.isSome_some]
      · intro cl hcl r hr
        rcases List.mem_append.mp hcl with h | h
        · exact hInv.resultMatches cl h r hr
        · simp only [List.mem_singleton] at h
          subst h
          simp only at hr
          exact hres r hr
      · intro k c cl hk hg hld
        have hmem : c ∈ s.ready := List.get?_mem hk
        obtain ⟨cl0, hg0, _⟩ := hInv.readyDone c hmem
        have hgold : s.callers.get? c = some cl := by
          rw [List.get?_append (lt_length_of_get?_eq_some hg0)] at hg
          exact hg
        rcases hInv.readyOrder k c cl hk hgold hld with h |
          ⟨k2, L, clL, hk2, hkL, hgL, hl1, hl2⟩
        · exact Or.inl (leaderDelivered_append rfl h)
        · exact Or.inr ⟨k2, L, clL, hk2, hkL, hlift _ hgL, hl1, hl2⟩
    cases hdo : s.doneOutcome.lookup f with
    | none =>
      rw [step_arrive_join s o f hpr hdo]
      exact hjoin none (fun r hr => by simp at hr)
    | some out =>
      rw [step_arrive_done s o f out hpr hdo]
      exact hjoin (some out) (fun r hr => by
        injection hr with hr
        rw [← hr]
        exact hdo)

theorem get?_append_cases {α : Type} {l l2 : List α} {i : Nat} {x : α}
    (h : (l ++ l2).get? i = some x) :
    (i < l.length ∧ l.get? i = some x) ∨
      (l.length ≤ i ∧ l2.get? (i - l.length) = some x) := by
  by_cases hi : i < l.length
  · exact Or.inl ⟨hi, by rw [← List.get?_append hi]; exact h⟩
  · have hle := Nat.le_of_not_lt hi
    exact Or.inr ⟨hle, by rw [← List.get?_append_right hle]; exact h⟩

theorem pairwise_lt_get?_lt {l : List Nat} (hp : l.Pairwise (· < ·))
    {i j a b : Nat} (hi : l.get? i = some a) (hj : l.get? j = some b)
    (hab : a < b) : i < j := by
  by_contra hc
  rcases Nat.lt_or_ge j i with hji | hij
  · have hilt := lt_length_of_get?_eq_some hi
    have hjlt := lt_length_of_get?_eq_some hj
    have := List.pairwise_iff_get.mp hp ⟨j, hjlt⟩ ⟨i, hilt⟩ hji
    rw [List.get?_eq_get hilt] at hi
    rw [List.get?_eq_get hjlt] at hj
    injection hi with hi
    injection hj with hj
    omega
  · have : i = j := by omega
    subst this
    rw [hi] at hj
    injection hj with hj
    omega

theorem inv_complete (s : SchedState) (out : Nat) (hInv : Inv s) :
    Inv (step s (Ev.complete out)) := by
  cases hpr : s.progress with
  | none =>
    rw [step_complete_idle s out hpr]
    exact hInv
  | some f =>
    cases hdo : s.doneOutcome.lookup f with
    | some v =>
      rw [step_complete_already s out f v hpr hdo]
      exact hInv
    | none =>
      rw [step_complete_busy s out f hpr hdo]
      have hsingle : ([(f, out)]).lookup f = some out := by
        simp [List.lookup]
      refine
        { callerFid := hInv.callerFid, progressLt := hInv.progressLt,
          doneLt := ?_, undoneProgress := ?_, readyDone := ?_,
          readyNodup := ?_, readyLeaderProgress := ?_,
          leaderUniq := hInv.leaderUniq,
          joinerHasLeader := hInv.joinerHasLeader,
          progressLeader := hInv.progressLeader, deliveredDone := ?_,
          resultMatches := ?_, readyOrder := ?_ }
      · intro g o2 hmem
        rcases List.mem_append.mp hmem with h | h
        · exact hInv.doneLt g o2 h
        · simp only [List.mem_singleton, Prod.mk.injEq] at h
          rw [h.1]
          exact hInv.progressLt f hpr
      · intro g hg hlook
        rw [lookup_append] at hlook
        cases hold : s.doneOutcome.lookup g with
        | some v =>
          rw [hold] at hlook
          simp at hlook
        | none =>
          rw [hold] at hlook
          have hpg := hInv.undoneProgress g hg hold
          rw [hpr] at hpg
          injection hpg with hpg
          subst hpg
          rw [hsingle] at hlook
          simp at hlook
      · intro c hc
        rcases List.mem_append.mp hc with h | h
        · obtain ⟨cl, hg, hd⟩ := hInv.readyDone c h
          obtain ⟨v, hv⟩ := Option.isSome_iff_exists.mp hd
          exact ⟨cl, hg, by rw [lookup_append_some _ hv]; rfl⟩
        · obtain ⟨cl, hg, hfid⟩ := mem_waitersOf.mp h
          refine ⟨cl, hg, ?_⟩
          rw [hfid, lookup_append_none _ hdo, hsingle]
          rfl
      · refine List.Nodup.append hInv.readyNodup (waitersOf_nodup s f) ?_
        intro c hc1 hc2
        obtain ⟨cl, hg, hd⟩ := hInv.readyDone c hc1
        obtain ⟨cl2, hg2, hfid⟩ := mem_waitersOf.mp hc2
        rw [hg] at hg2
        injection hg2 with hg2
        subst hg2
        rw [hfid, hdo] at hd
        simp at hd
      · intro c hc cl hg hld
        rcases List.mem_append.mp hc with h | h
        · exact hInv.readyLeaderProgress c h cl hg hld
        · obtain ⟨cl2, hg2, hfid⟩ := mem_waitersOf.mp h
          rw [hg] at hg2
          injection hg2 with hg2
          subst hg2
          rw [hpr, hfid]
      · intro cl hcl hr
        obtain ⟨v, hv⟩ :=
          Option.isSome_iff_exists.mp (hInv.deliveredDone cl hcl hr)
        rw [lookup_append_some _ hv]
        rfl
      · intro cl hcl r hr
        exact lookup_append_some _ (hInv.resultMatches cl hcl r hr)
      · intro k c cl hk hg hld
        rcases get?_append_cases hk with ⟨hklt, hk2⟩ | ⟨hkge, hk2⟩
        · rcases hInv.readyOrder k c cl hk2 hg hld with h |
            ⟨k2, L, clL, hlt2, hkL, hgL, hl1, hl2⟩
          · exact Or.inl h
          · exact Or.inr ⟨k2, L, clL, hlt2,
              by rw [List.get?_append (by omega)]; exact hkL, hgL, hl1, hl2⟩
        · have hcb : c ∈ waitersOf s f := List.get?_mem hk2
          obtain ⟨cl2, hg2, hfid⟩ := mem_waitersOf.mp hcb
          rw [hg] at hg2
          injection hg2 with hg2
          subst hg2
          obtain ⟨L, clL, hLc, hgL, hl1, hl2⟩ :=
            hInv.joinerHasLeader c cl hg hld
          have hLb : L ∈ waitersOf s f :=
            mem_waitersOf.mpr ⟨clL, hgL, by rw [hl2, hfid]⟩
          obtain ⟨posL, hposL⟩ := List.get?_of_mem hLb
          have hpos : posL < k - s.ready.length :=
            pairwise_lt_get?_lt (waitersOf_pairwise s f) hposL hk2 hLc
          refine Or.inr ⟨s.ready.length + posL, L, clL, by omega, ?_,
            hgL, hl1, by rw [hl2, hfid]⟩
          rw [List.get?_append_right (by omega)]
          have : s.ready.length + posL - s.ready.length = posL := by omega
          rw [this]
          exact hposL

theorem inv_runNext (s : SchedState) (hInv : Inv s) :
    Inv (step s Ev.runNext) := by
  cases hrd : s.ready with
  | nil =>
    rw [step_runNext_nil s hrd]
    exact hInv
  | cons c rest =>
    have hcmem : c ∈ s.ready := by
      rw [hrd]
      exact List.mem_cons_self _ _
    obtain ⟨cl, hg, hd⟩ := hInv.readyDone c hcmem
    obtain ⟨out, hdo⟩ := Option.isSome_iff_exists.mp hd
    have hrestmem : ∀ {c2 : Nat}, c2 ∈ rest → c2 ∈ s.ready := by
      intro c2 h2
      rw [hrd]
      exact List.mem_cons_of_mem _ h2
    have hrestnd : rest.Nodup := by
      have := hInv.readyNodup
      rw [hrd] at this
      exact (List.nodup_cons.mp this).2
    have hcnotrest : c ∉ rest := by
      have := hInv.readyNodup
      rw [hrd] at this
      exact (List.nodup_cons.mp this).1
    have hget2 : ∀ {i : Nat} {cli : Caller},
        (s.callers.set c { cl with result := some out }).get? i = some cli →
        ∃ clo, s.callers.get? i = some clo ∧ clo.fid = cli.fid ∧
          clo.isLeader = cli.isLeader ∧
          (cli.result = clo.result ∨ cli.result = some out) := by
      intro i cli hgi
      by_cases hic : i = c
      · subst hic
        rw [get?_set_self (lt_length_of_get?_eq_some hg)] at hgi
        injection hgi with hgi
        exact ⟨cl, hg, by rw [← hgi], by rw [← hgi], Or.inr (by rw [← hgi])⟩
      · rw [List.get?_set_ne _ _ (fun hh => hic hh.symm)] at hgi
        exact ⟨cli, hgi, rfl, rfl, Or.inl rfl⟩
    have hget3 : ∀ {i : Nat} {clo : Caller}, s.callers.get? i = some clo →
        ∃ cli, (s.callers.set c { cl with result := some out }).get? i
            = some cli ∧
          clo.fid = cli.fid ∧ clo.isLeader = cli.isLeader := by
      intro i clo hgi
      by_cases hic : i = c
      · subst hic
        rw [hgi] at hg
        injection hg with hg
        subst hg
        exact ⟨{ clo with result := some out },
          get?_set_self (lt_length_of_get?_eq_some hgi), rfl, rfl⟩
      · exact ⟨clo, by
          rw [List.get?_set_ne _ _ (fun hh => hic hh.symm)]; exact hgi,
          rfl, rfl⟩
    have hsetFid : ∀ cl2 ∈ s.callers.set c { cl with result := some out },
        cl2.fid < s.fetchCount := by
      intro cl2 h2
      rcases List.mem_or_eq_of_mem_set h2 with h3 | h3
      · exact hInv.callerFid cl2 h3
      · rw [h3]
        exact hInv.callerFid cl (List.get?_mem hg)
    have hReadyDone : ∀ c2 ∈ rest, ∃ cl2,
        (s.callers.set c { cl with result := some out }).get? c2 = some cl2 ∧
        (s.doneOutcome.lookup cl2.fid).isSome = true := by
      intro c2 h2
      obtain ⟨cl2, hg2, hd2⟩ := hInv.readyDone c2 (hrestmem h2)
      obtain ⟨cli, hgi, hfid, _⟩ := hget3 hg2
      exact ⟨cli, hgi, by rw [← hfid]; exact hd2⟩
    have hUniq : ∀ (i j : Nat) (cli clj : Caller),
        (s.callers.set c { cl with result := some out }).get? i = some cli →
        (s.callers.set c { cl with result := some out }).get? j = some clj →
        cli.isLeader = true → clj.isLeader = true → cli.fid = clj.fid →
        i = j := by
      intro i j cli clj hgi hgj hli hlj hf
      obtain ⟨cloi, hgoi, hfi, hleadi, _⟩ := hget2 hgi
      obtain ⟨cloj, hgoj, hfj, hleadj, _⟩ := hget2 hgj
      exact hInv.leaderUniq i j cloi cloj hgoi hgoj (by rw [hleadi]; exact hli)
        (by rw [hleadj]; exact hlj) (by rw [hfi, hfj]; exact hf)
    have hJoin : ∀ (i : Nat) (cli : Caller),
        (s.callers.set c { cl with result := some out }).get? i = some cli →
        cli.isLeader = false → ∃ j clL, j < i ∧
          (s.callers.set c { cl with result := some out }).get? j
            = some clL ∧
          clL.isLeader = true ∧ clL.fid = cli.fid := by
      intro i cli hgi hli
      obtain ⟨clo, hgo, hfi, hleado, _⟩ := hget2 hgi
      obtain ⟨j, clL, hj, hgL, hl1, hl2⟩ :=
        hInv.joinerHasLeader i clo hgo (by rw [hleado]; exact hli)
      obtain ⟨clL2, hgL2, hfL, hleadL⟩ := hget3 hgL
      exact ⟨j, clL2, hj, hgL2, by rw [← hleadL]; exact hl1,
        by rw [← hfL, ← hfi]; exact hl2⟩
    have hDeliv : ∀ cl2 ∈ s.callers.set c { cl with result := some out },
        cl2.result ≠ none →
        (s.doneOutcome.lookup cl2.fid).isSome = true := by
      intro cl2 h2 hr2
      rcases List.mem_or_eq_of_mem_set h2 with h3 | h3
      · exact hInv.deliveredDone cl2 h3 hr2
      · rw [h3]
        rw [hdo]
        rfl
    have hMatch : ∀ cl2 ∈ s.callers.set c { cl with result := some out },
        ∀ r, cl2.result = some r →
        s.doneOutcome.lookup cl2.fid = some r := by
      intro cl2 h2 r hr2
      rcases List.mem_or_eq_of_mem_set h2 with h3 | h3
      · exact hInv.resultMatches cl2 h3 r hr2
      · rw [h3]
        rw [h3] at hr2
        simp only at hr2
        injection hr2 with hr2
        rw [← hr2]
        exact hdo
    cases hldc : cl.isLeader with
    | false =>
      rw [step_runNext_joiner s c rest cl out hrd hg hdo hldc]
      refine
        { callerFid := hsetFid, progressLt := hInv.progressLt,
          doneLt := hInv.doneLt, undoneProgress := hInv.undoneProgress,
          readyDone := hReadyDone, readyNodup := hrestnd,
          readyLeaderProgress := ?_, leaderUniq := hUniq,
          joinerHasLeader := hJoin, progressLeader := ?_,
          deliveredDone := hDeliv, resultMatches := hMatch,
          readyOrder := ?_ }
      · intro c2 h2 cli hgi hli
        obtain ⟨clo, hgo, hfi, hleado, _⟩ := hget2 hgi
        have := hInv.readyLeaderProgress c2 (hrestmem h2) clo hgo
          (by rw [hleado]; exact hli)
        rw [← hfi]
        exact this
      · intro f hf
        obtain ⟨i, cli, hgi, hl1, hl2⟩ := hInv.progressLeader f hf
        obtain ⟨cli2, hgi2, hfid, hlead⟩ := hget3 hgi
        exact ⟨i, cli2, hgi2, by rw [← hlead]; exact hl1,
          by rw [← hfid]; exact hl2⟩
      · intro k c2 cl2 hk hg2 hld2
        obtain ⟨clo2, hgo2, hfid2, hlead2, _⟩ := hget2 hg2
        have hkold : s.ready.get? (k + 1) = some c2 := by
          rw [hrd]
          simpa using hk
        rcases hInv.readyOrder (k + 1) c2 clo2 hkold hgo2
          (by rw [hlead2]; exact hld2) with h | ⟨k2, L, clL, hk2, hkL,
            hgL, hl1, hl2⟩
        · refine Or.inl ?_
          rw [← hfid2]
          exact leaderDelivered_set hg rfl h
        · cases k2 with
          | zero =>
            exfalso
            rw [hrd] at hkL
            simp only [List.get?_cons_zero] at hkL
            injection hkL with hkL
            subst hkL
            rw [hgL] at hg
            injection hg with hg
            rw [← hg] at hldc
            rw [hldc] at hl1
            exact Bool.noConfusion hl1
          | succ k2 =>
            have hkL2 : rest.get? k2 = some L := by
              rw [hrd] at hkL
              simpa using hkL
            obtain ⟨clL2, hgL2, hfidL, hleadL⟩ := hget3 hgL
            exact Or.inr ⟨k2, L, clL2, by omega, hkL2, hgL2,
              by rw [← hleadL]; exact hl1,
              by rw [← hfidL, ← hfid2]; exact hl2⟩
    | true =>
      rw [step_runNext_leader s c rest cl out hrd hg hdo hldc]
      refine
        { callerFid := hsetFid, progressLt := ?_,
          doneLt := hInv.doneLt, undoneProgress := ?_,
          readyDone := hReadyDone, readyNodup := hrestnd,
          readyLeaderProgress := ?_, leaderUniq := hUniq,
          joinerHasLeader := hJoin, progressLeader := ?_,
          deliveredDone := hDeliv, resultMatches := hMatch,
          readyOrder := ?_ }
      · intro f hf
        exact Option.noConfusion hf
      · intro g hg2 hlook
        exfalso
        have hpg := hInv.undoneProgress g hg2 hlook
        have hpc := hInv.readyLeaderProgress c hcmem cl hg hldc
        rw [hpc] at hpg
        injection hpg with hpg
        rw [← hpg] at hlook
        rw [hdo] at hlook
        exact Option.noConfusion hlook
      · intro c2 h2 cli hgi hli
        exfalso
        obtain ⟨clo, hgo, hfi, hleado, _⟩ := hget2 hgi
        have hp2 := hInv.readyLeaderProgress c2 (hrestmem h2) clo hgo
          (by rw [hleado]; exact hli)
        have hpc := hInv.readyLeaderProgress c hcmem cl hg hldc
        rw [hpc] at hp2
        injection hp2 with hp2
        have := hInv.leaderUniq c2 c clo cl hgo hg
          (by rw [hleado]; exact hli) hldc hp2.symm
        subst this
        exact hcnotrest h2
      · intro f hf
        exact Option.noConfusion hf
      · intro k c2 cl2 hk hg2 hld2
        obtain ⟨clo2, hgo2, hfid2, hlead2, _⟩ := hget2 hg2
        have hkold : s.ready.get? (k + 1) = some c2 := by
          rw [hrd]
          simpa using hk
        rcases hInv.readyOrder (k + 1) c2 clo2 hkold hgo2
          (by rw [hlead2]; exact hld2) with h | ⟨k2, L, clL, hk2, hkL,
            hgL, hl1, hl2⟩
        · refine Or.inl ?_
          rw [← hfid2]
          exact leaderDelivered_set hg rfl h
        · cases k2 with
          | zero =>
            refine Or.inl ?_
            rw [hrd] at hkL
            simp only [List.get?_cons_zero] at hkL
            injection hkL with hkL
            subst hkL
            rw [hgL] at hg
            injection hg with hg
            refine ⟨c, { cl with result := some out },
              get?_set_self (lt_length_of_get?_eq_some hgL), hldc, ?_, by
                simp⟩
            have : clL.fid = cl.fid := by rw [hg]
            rw [← hfid2, ← hl2, this]
          | succ k2 =>
            have hkL2 : rest.get? k2 = some L := by
              rw [hrd] at hkL
              simpa using hkL
            obtain ⟨clL2, hgL2, hfidL, hleadL⟩ := hget3 hgL
            exact Or.inr ⟨k2, L, clL2, by omega, hkL2, hgL2,
              by rw [← hleadL]; exact hl1,
              by rw [← hfidL, ← hfid2]; exact hl2⟩

theorem inv_init : Inv init := by
  refine
    { callerFid := ?_, progressLt := ?_, doneLt := ?_, undoneProgress := ?_,
      readyDone := ?_, readyNodup := List.nodup_nil,
      readyLeaderProgress := ?_, leaderUniq := ?_, joinerHasLeader := ?_,
      progressLeader := ?_, deliveredDone := ?_, resultMatches := ?_,
      readyOrder := ?_ } <;>
    intro a
  · exact fun h => absurd h (List.not_mem_nil a)
  · exact fun h => Option.noConfusion h
  · intro o h
    exact absurd h (List.not_mem_nil _)
  · intro h
    exact absurd h (Nat.not_lt_zero a)
  · exact fun h => absurd h (List.not_mem_nil a)
  · exact fun h => absurd h (List.not_mem_nil a)
  · intro i cli clj hgi
    exact Option.noConfusion hgi
  · intro cl hg
    exact Option.noConfusion hg
  · exact fun h => Option.noConfusion h
  · exact fun h => absurd h (List.not_mem_nil a)
  · exact fun h => absurd h (List.not_mem_nil a)
  · intro c cl hk
    exact Option.noConfusion hk

theorem inv_step (s : SchedState) (e : Ev) (hInv : Inv s) :
    Inv (step s e) := by
  cases e with
  | arrive o => exact inv_arrive s o hInv
  | complete out => exact inv_complete s out hInv
  | runNext => exact inv_runNext s hInv

theorem inv_foldl : ∀ (tr : List Ev) (s : SchedState), Inv s →
    Inv (tr.foldl step s)
  | [], _, h => h
  | e :: rest, s, h => by
    rw [List.foldl_cons]
    exact inv_foldl rest (step s e) (inv_step s e h)

theorem inv_exec (tr : List Ev) : Inv (exec tr) :=
  inv_foldl tr init inv_init

theorem outstanding_le_one_of_inv (s : SchedState) (hInv : Inv s) :
    (outstanding s).length ≤ 1 := by
  apply length_le_one_of_all_eq
  · exact (List.nodup_range _).filter _
  · intro a ha b hb
    unfold outstanding at ha hb
    rw [List.mem_filter, List.mem_range] at ha hb
    have hpa := hInv.undoneProgress a ha.1
      (by simpa [Option.isNone_iff_eq_none] using ha.2)
    have hpb := hInv.undoneProgress b hb.1
      (by simpa [Option.isNone_iff_eq_none] using hb.2)
    rw [hpa] at hpb
    injection hpb with h

theorem exec_arrives_join : ∀ (os : List Nat) (s : SchedState) (f : Nat),
    s.progress = some f → s.doneOutcome.lookup f = none →
    (os.map Ev.arrive).foldl step s =
      { s with
        sensor_progress :=
          os.foldl (fun l o => addWaiter o l) s.sensor_progress,
        callers := s.callers ++ os.map (fun o => ⟨o, f, false, none⟩) }
  | [], s, f, _, _ => by simp
  | o :: rest, s, f, hpr, hdo => by
    rw [List.map_cons, List.foldl_cons, step_arrive_join s o f hpr hdo,
      exec_arrives_join rest
        { s with sensor_progress := addWaiter o s.sensor_progress,
                 callers := s.callers ++ [⟨o, f, false, none⟩] } f hpr hdo]
    simp

theorem waitersOf_all (s : SchedState) (f : Nat)
    (h : ∀ cl ∈ s.callers, cl.fid = f) :
    waitersOf s f = List.range s.callers.length := by
  unfold waitersOf
  apply List.filter_eq_self.mpr
  intro i hi
  rw [List.mem_range] at hi
  cases hg : s.callers.get? i with
  | none =>
    exact absurd (List.get?_eq_none.mp hg) (by omega)
  | some cl =>
    simp [h cl (List.get?_mem hg)]

theorem runNext_drain : ∀ (n : Nat) (s : SchedState) (out : Nat),
    (∀ c ∈ s.ready, ∃ cl, s.callers.get? c = some cl ∧
      s.doneOutcome.lookup cl.fid = some out) →
    (∀ i cl, s.callers.get? i = some cl →
      cl.result = some out ∨ i ∈ s.ready) →
    s.ready.length ≤ n →
    ((List.replicate n Ev.runNext).foldl step s).fetchCount = s.fetchCount ∧
    ((List.replicate n Ev.runNext).foldl step s).callers.length
      = s.callers.length ∧
    (∀ cl ∈ ((List.replicate n Ev.runNext).foldl step s).callers,
      cl.result = some out)
  | 0, s, out, h1, h2, hlen => by
    have hnil : s.ready = [] := List.eq_nil_of_length_eq_zero (by omega)
    refine ⟨rfl, rfl, ?_⟩
    intro cl hcl
    obtain ⟨i, hg⟩ := List.get?_of_mem hcl
    rcases h2 i cl hg with h | h
    · exact h
    · rw [hnil] at h
      exact absurd h (List.not_mem_nil i)
  | n + 1, s, out, h1, h2, hlen => by
    rw [List.replicate_succ, List.foldl_cons]
    cases hrd : s.ready with
    | nil =>
      rw [step_runNext_nil s hrd]
      exact runNext_drain n s out h1 h2 (by rw [hrd]; simp)
    | cons c rest =>
      obtain ⟨cl, hg, hdo⟩ := h1 c (by rw [hrd]; exact List.mem_cons_self _ _)
      have hlt : c < s.callers.length := lt_length_of_get?_eq_some hg
      have hnext : ∀ (s2 : SchedState),
          s2.ready = rest →
          s2.callers = s.callers.set c { cl with result := some out } →
          s2.doneOutcome = s.doneOutcome → s2.fetchCount = s.fetchCount →
          ((List.replicate n Ev.runNext).foldl step s2).fetchCount
            = s.fetchCount ∧
          ((List.replicate n Ev.runNext).foldl step s2).callers.length
            = s.callers.length ∧
          (∀ cl2 ∈ ((List.replicate n Ev.runNext).foldl step s2).callers,
            cl2.result = some out) := by
        intro s2 hr2 hc2 hd2 hf2
        have hres := runNext_drain n s2 out
          (by
            intro c2 hc2m
            rw [hr2] at hc2m
            obtain ⟨cl2, hg2, hdo2⟩ := h1 c2
              (by rw [hrd]; exact List.mem_cons_of_mem _ hc2m)
            by_cases hcc : c2 = c
            · subst hcc
              rw [hg] at hg2
              injection hg2 with hg2
              subst hg2
              exact ⟨{ cl with result := some out },
                by rw [hc2]; exact get?_set_self hlt,
                by rw [hd2]; exact hdo2⟩
            · exact ⟨cl2,
                by rw [hc2, List.get?_set_ne _ _ (fun hh => hcc hh.symm)]
                   exact hg2,
                by rw [hd2]; exact hdo2⟩)
          (by
            intro i cli hgi
            by_cases hcc : i = c
            · subst hcc
              rw [hc2, get?_set_self hlt] at hgi
              injection hgi with hgi
              rw [← hgi]
              exact Or.inl rfl
            · rw [hc2, List.get?_set_ne _ _ (fun hh => hcc hh.symm)] at hgi
              rcases h2 i cli hgi with h | h
              · exact Or.inl h
              · rw [hrd] at h
                rcases List.mem_cons.mp h with h | h
                · exact absurd h hcc
                · rw [hr2]
                  exact Or.inr h)
          (by
            rw [hr2]
            have : s.ready.length = rest.length + 1 := by rw [hrd]; rfl
            omega)
        refine ⟨by rw [hres.1, hf2], ?_, hres.2.2⟩
        rw [hres.2.1, hc2]
        exact List.length_set _ _ _
      cases hld : cl.isLeader with
      | true =>
        rw [step_runNext_leader s c rest cl out hrd hg hdo hld]
        exact hnext _ rfl rfl rfl rfl
      | false =>
        rw [step_runNext_joiner s c rest cl out hrd hg hdo hld]
        exact hnext _ rfl rfl rfl rfl

theorem exec_arrive_block (o : Nat) (os : List Nat) :
    exec ((o :: os).map Ev.arrive) =
      { progress := some 0,
        sensor_progress :=
          os.foldl (fun l o2 => addWaiter o2 l) (addWaiter o []),
        fetchCount := 1, doneOutcome := [], ready := [],
        callers := ⟨o, 0, true, none⟩ ::
          os.map (fun o2 => ⟨o2, 0, false, none⟩) } := by
  unfold exec
  rw [List.map_cons, List.foldl_cons, step_arrive_fresh init o rfl]
  rw [exec_arrives_join os
    { init with sensor_progress := addWaiter o init.sensor_progress,
                progress := some init.fetchCount,
                fetchCount := init.fetchCount + 1,
                callers := init.callers ++ [⟨o, init.fetchCount, true, none⟩] }
    0 rfl rfl]
  simp [init]

theorem leaderDelivered_step (s : SchedState) (e : Ev) (f : Nat)
    (h : leaderDelivered s f) : leaderDelivered (step s e) f := by
  obtain ⟨i, cl, hg, h1, h2, h3⟩ := h
  cases e with
  | arrive o =>
    cases hpr : s.progress with
    | none =>
      rw [step_arrive_fresh s o hpr]
      exact leaderDelivered_append rfl ⟨i, cl, hg, h1, h2, h3⟩
    | some g =>
      cases hdo : s.doneOutcome.lookup g with
      | none =>
        rw [step_arrive_join s o g hpr hdo]
        exact leaderDelivered_append rfl ⟨i, cl, hg, h1, h2, h3⟩
      | some out =>
        rw [step_arrive_done s o g out hpr hdo]
        exact leaderDelivered_append rfl ⟨i, cl, hg, h1, h2, h3⟩
  | complete out =>
    cases hpr : s.progress with
    | none =>
      rw [step_complete_idle s out hpr]
      exact ⟨i, cl, hg, h1, h2, h3⟩
    | some g =>
      cases hdo : s.doneOutcome.lookup g with
      | some v =>
        rw [step_complete_already s out g v hpr hdo]
        exact ⟨i, cl, hg, h1, h2, h3⟩
      | none =>
        rw [step_complete_busy s out g hpr hdo]
        exact ⟨i, cl, hg, h1, h2, h3⟩
  | runNext =>
    cases hrd : s.ready with
    | nil =>
      rw [step_runNext_nil s hrd]
      exact ⟨i, cl, hg, h1, h2, h3⟩
    | cons c rest =>
      cases hcl : s.callers.get? c with
      | none =>
        rw [step_runNext_invalid s c rest hrd hcl]
        exact ⟨i, cl, hg, h1, h2, h3⟩
      | some cl2 =>
        cases hdo : s.doneOutcome.lookup cl2.fid with
        | none =>
          rw [step_runNext_undone s c rest cl2 hrd hcl hdo]
          exact ⟨i, cl, hg, h1, h2, h3⟩
        | some out =>
          cases hld : cl2.isLeader with
          | true =>
            rw [step_runNext_leader s c rest cl2 out hrd hcl hdo hld]
            exact leaderDelivered_set hcl rfl ⟨i, cl, hg, h1, h2, h3⟩
          | false =>
            rw [step_runNext_joiner s c rest cl2 out hrd hcl hdo hld]
            exact leaderDelivered_set hcl rfl ⟨i, cl, hg, h1, h2, h3⟩

theorem exists_first_true (Q : Nat → Prop) :
    ∀ (k : Nat), ¬ Q 0 → Q k → ∃ j, j < k ∧ ¬ Q j ∧ Q (j + 1)
  | 0, h0, hk => absurd hk h0
  | k + 1, h0, hk => by
    by_cases hQ : Q k
    · obtain ⟨j, hj, hnq, hq⟩ := exists_first_true Q k h0 hQ
      exact ⟨j, by omega, hnq, hq⟩
    · exact ⟨k, by omega, hQ, hk⟩

theorem exec_take_succ (tr : List Ev) (j : Nat) (e : Ev)
    (h : tr.get? j = some e) :
    exec (tr.take (j + 1)) = step (exec (tr.take j)) e := by
  have h2 : tr[j]? = some e := by
    rw [← List.get?_eq_getElem?]
    exact h
  rw [List.take_succ, h2]
  show exec (tr.take j ++ [e]) = _
  exact exec_append _ e

/-- C1.  Single-flight: (1) in the scenario where `1 + os.length` callers
arrive before the in-flight fetch resolves and the fetch then resolves with
outcome `out`, exactly one `update_bridge` invocation occurs
(`fetchCount = 1`) and every one of the callers receives that same outcome;
(2) in every reachable state, at most one fetch is outstanding
(started but unresolved); (3) in every reachable state, any two callers of
the same fetch that have been handed results were handed the same result. -/
theorem single_flight :
    (∀ (o : Nat) (os : List Nat) (out : Nat),
      (exec (burstTrace o os out)).fetchCount = 1 ∧
      (exec (burstTrace o os out)).callers.length = os.length + 1 ∧
      (∀ cl ∈ (exec (burstTrace o os out)).callers,
        cl.result = some out)) ∧
    (∀ tr : List Ev, (outstanding (exec tr)).length ≤ 1) ∧
    (∀ tr : List Ev, ∀ cl ∈ (exec tr).callers, ∀ cl2 ∈ (exec tr).callers,
      cl.fid = cl2.fid → ∀ r r2 : Nat, cl.result = some r →
      cl2.result = some r2 → r = r2) := by
  refine ⟨?_, ?_, ?_⟩
  · intro o os out
    have hall : ∀ cl ∈ (⟨o, 0, true, none⟩ ::
        os.map (fun o2 => (⟨o2, 0, false, none⟩ : Caller))), cl.fid = 0 := by
      intro cl hcl
      rcases List.mem_cons.mp hcl with h | h
      · rw [h]
      · obtain ⟨o2, _, h2⟩ := List.mem_map.mp h
        rw [← h2]
    have hsplit : exec (burstTrace o os out)
        = (List.replicate (os.length + 1) Ev.runNext).foldl step
            (step (exec ((o :: os).map Ev.arrive)) (Ev.complete out)) := by
      unfold burstTrace exec
      rw [List.foldl_append, List.foldl_cons]
    have hstep : step (exec ((o :: os).map Ev.arrive)) (Ev.complete out)
        = { progress := some 0,
            sensor_progress :=
              os.foldl (fun l o2 => addWaiter o2 l) (addWaiter o []),
            fetchCount := 1, doneOutcome := [(0, out)],
            ready := List.range (os.length + 1),
            callers := ⟨o, 0, true, none⟩ ::
              os.map (fun o2 => ⟨o2, 0, false, none⟩) } := by
      rw [exec_arrive_block o os]
      rw [step_complete_busy
        { progress := some 0,
          sensor_progress :=
            os.foldl (fun l o2 => addWaiter o2 l) (addWaiter o []),
          fetchCount := 1, doneOutcome := [], ready := [],
          callers := ⟨o, 0, true, none⟩ ::
            os.map (fun o2 => ⟨o2, 0, false, none⟩) } out 0 rfl rfl]
      rw [waitersOf_all _ 0 hall]
      simp
    have hlen2 : ((⟨o, 0, true, none⟩ ::
        os.map (fun o2 => (⟨o2, 0, false, none⟩ : Caller)))).length
          = os.length + 1 := by
      simp
    obtain ⟨hfc, hcl, hres⟩ := runNext_drain (os.length + 1)
      { progress := some 0,
        sensor_progress :=
          os.foldl (fun l o2 => addWaiter o2 l) (addWaiter o []),
        fetchCount := 1, doneOutcome := [(0, out)],
        ready := List.range (os.length + 1),
        callers := ⟨o, 0, true, none⟩ ::
          os.map (fun o2 => ⟨o2, 0, false, none⟩) } out
      (by
        intro c hc
        rw [List.mem_range] at hc
        cases hg : (⟨o, 0, true, none⟩ ::
            os.map (fun o2 => (⟨o2, 0, false, none⟩ : Caller))).get? c with
        | none =>
          have := List.get?_eq_none.mp hg
          rw [hlen2] at this
          omega
        | some cl =>
          exact ⟨cl, rfl,
            by rw [hall cl (List.get?_mem hg)]; simp [List.lookup]⟩
      )
      (by
        intro i cl hg
        refine Or.inr (List.mem_range.mpr ?_)
        have := lt_length_of_get?_eq_some hg
        rw [hlen2] at this
        exact this)
      (by simp)
    rw [hsplit, hstep]
    refine ⟨hfc, ?_, hres⟩
    rw [hcl]
    exact hlen2
  · intro tr
    exact outstanding_le_one_of_inv _ (inv_exec tr)
  · intro tr cl hcl cl2 hcl2 hfid r r2 hr hr2
    have m1 := (inv_exec tr).resultMatches cl hcl r hr
    have m2 := (inv_exec tr).resultMatches cl2 hcl2 r2 hr2
    rw [hfid, m2] at m1
    injection m1 with m1
    exact m1.symm

/-- Witness for C1: the burst scenario with callers 0 and 1 and outcome 7. -/
theorem single_flight_witness :
    (exec (burstTrace 0 [1] 7)).fetchCount = 1 ∧
    (⟨0, 0, true, some 7⟩ : Caller).result = some 7 ∧
    (outstanding (exec (burstTrace 0 [1] 7))).length ≤ 1 :=
  ⟨(single_flight.1 0 [1] 7).1,
   (single_flight.1 0 [1] 7).2.2 ⟨0, 0, true, some 7⟩ (by decide),
   single_flight.2.1 (burstTrace 0 [1] 7)⟩

/-- C2.  Atomic clear before release: whenever the event loop is about to
resume a waiter (a suspended joiner at the head of the queue, about to be
handed the just-finished request's result), there is an earlier step — the
resumption of that request's starting caller, which runs
`progress = None; sensor_progress.clear()` without suspending — immediately
after which the in-flight marker is `None` and the waiter set is empty.  No
waiter resumes while the just-finished request's marker or waiter set is
still populated. -/
theorem clear_before_release (tr : List Ev) (k c : Nat) (cl : Caller)
    (hk : tr.get? k = some Ev.runNext)
    (hhead : (exec (tr.take k)).ready.get? 0 = some c)
    (hg : (exec (tr.take k)).callers.get? c = some cl)
    (hld : cl.isLeader = false) :
    ∃ j, j < k ∧ ¬ leaderDelivered (exec (tr.take j)) cl.fid ∧
      leaderDelivered (exec (tr.take (j + 1))) cl.fid ∧
      (exec (tr.take (j + 1))).progress = none ∧
      (exec (tr.take (j + 1))).sensor_progress = [] := by
  have hInv := inv_exec (tr.take k)
  have hP : leaderDelivered (exec (tr.take k)) cl.fid := by
    rcases hInv.readyOrder 0 c cl hhead hg hld with h |
      ⟨k2, L, clL, hk2, _⟩
    · exact h
    · omega
  have hP0 : ¬ leaderDelivered (exec (tr.take 0)) cl.fid := by
    rintro ⟨i, cl2, hg2, -, -, -⟩
    rw [List.take_zero] at hg2
    exact Option.noConfusion hg2
  obtain ⟨j, hjk, hnq, hq⟩ := exists_first_true
    (fun n => leaderDelivered (exec (tr.take n)) cl.fid) k hP0 hP
  have hjtr : j < tr.length := by
    have : k < tr.length := lt_length_of_get?_eq_some hk
    omega
  obtain ⟨e, he⟩ : ∃ e, tr.get? j = some e := by
    cases hje : tr.get? j with
    | none =>
      have := List.get?_eq_none.mp hje
      omega
    | some e => exact ⟨e, rfl⟩
  have hstep := exec_take_succ tr j e he
  have hfinal : (step (exec (tr.take j)) e).progress = none ∧
      (step (exec (tr.take j)) e).sensor_progress = [] := by
    rw [hstep] at hq
    cases e with
    | arrive o =>
      exfalso
      cases hpr : (exec (tr.take j)).progress with
      | none =>
        rw [step_arrive_fresh _ o hpr] at hq
        obtain ⟨i, cl2, hg2, hl1, hfid2, hres⟩ := hq
        rcases get?_concat_cases hg2 with ⟨_, hold⟩ | ⟨_, hnew⟩
        · exact hnq ⟨i, cl2, hold, hl1, hfid2, hres⟩
        · rw [hnew] at hres
          simp at hres
      | some g =>
        cases hdo : (exec (tr.take j)).doneOutcome.lookup g with
        | none =>
          rw [step_arrive_join _ o g hpr hdo] at hq
          obtain ⟨i, cl2, hg2, hl1, hfid2, hres⟩ := hq
          rcases get?_concat_cases hg2 with ⟨_, hold⟩ | ⟨_, hnew⟩
          · exact hnq ⟨i, cl2, hold, hl1, hfid2, hres⟩
          · rw [hnew] at hl1
            simp at hl1
        | some out =>
          rw [step_arrive_done _ o g out hpr hdo] at hq
          obtain ⟨i, cl2, hg2, hl1, hfid2, hres⟩ := hq
          rcases get?_concat_cases hg2 with ⟨_, hold⟩ | ⟨_, hnew⟩
          · exact hnq ⟨i, cl2, hold, hl1, hfid2, hres⟩
          · rw [hnew] at hl1
            simp at hl1
    | complete out =>
      exfalso
      cases hpr : (exec (tr.take j)).progress with
      | none =>
        rw [step_complete_idle _ out hpr] at hq
        exact hnq hq
      | some g =>
        cases hdo : (exec (tr.take j)).doneOutcome.lookup g with
        | some v =>
          rw [step_complete_already _ out g v hpr hdo] at hq
          exact hnq hq
        | none =>
          rw [step_complete_busy _ out g hpr hdo] at hq
          obtain ⟨i, cl2, hg2, hl1, hfid2, hres⟩ := hq
          exact hnq ⟨i, cl2, hg2, hl1, hfid2, hres⟩
    | runNext =>
      cases hrd : (exec (tr.take j)).ready with
      | nil =>
        rw [step_runNext_nil _ hrd] at hq
        exact absurd hq hnq
      | cons c0 rest =>
        cases hcl0 : (exec (tr.take j)).callers.get? c0 with
        | none =>
          rw [step_runNext_invalid _ c0 rest hrd hcl0] at hq
          exfalso
          obtain ⟨i, cl2, hg2, hl1, hfid2, hres⟩ := hq
          exact hnq ⟨i, cl2, hg2, hl1, hfid2, hres⟩
        | some cl0 =>
          cases hdo0 : (exec (tr.take j)).doneOutcome.lookup cl0.fid with
          | none =>
            rw [step_runNext_undone _ c0 rest cl0 hrd hcl0 hdo0] at hq
            exfalso
            obtain ⟨i, cl2, hg2, hl1, hfid2, hres⟩ := hq
            exact hnq ⟨i, cl2, hg2, hl1, hfid2, hres⟩
          | some out =>
            cases hld0 : cl0.isLeader with
            | true =>
              rw [step_runNext_leader _ c0 rest cl0 out hrd hcl0 hdo0 hld0]
              exact ⟨rfl, rfl⟩
            | false =>
              exfalso
              rw [step_runNext_joiner _ c0 rest cl0 out hrd hcl0 hdo0
                hld0] at hq
              obtain ⟨i, cl2, hg2, hl1, hfid2, hres⟩ := hq
              by_cases hic : i = c0
              · subst hic
                rw [get?_set_self (lt_length_of_get?_eq_some hcl0)] at hg2
                injection hg2 with hg2
                rw [← hg2] at hl1
                have hl2 : cl0.isLeader = true := hl1
                rw [hld0] at hl2
                exact Bool.noConfusion hl2
              · rw [List.get?_set_ne _ _ (fun hh => hic hh.symm)] at hg2
                exact hnq ⟨i, cl2, hg2, hl1, hfid2, hres⟩
  refine ⟨j, hjk, hnq, hq, ?_, ?_⟩
  · rw [hstep]
    exact hfinal.1
  · rw [hstep]
    exact hfinal.2

/-- Witness for C2: two callers, caller 1 joins; at step 4 the joiner is
about to resume; the clears happened at step 3 (the leader's resumption). -/
theorem clear_before_release_witness :
    ∃ j, j < 4 ∧
      ¬ leaderDelivered (exec (([Ev.arrive 0, Ev.arrive 1, Ev.complete 7,
        Ev.runNext, Ev.runNext]).take j)) 0 ∧
      leaderDelivered (exec (([Ev.arrive 0, Ev.arrive 1, Ev.complete 7,
        Ev.runNext, Ev.runNext]).take (j + 1))) 0 ∧
      (exec (([Ev.arrive 0, Ev.arrive 1, Ev.complete 7, Ev.runNext,
        Ev.runNext]).take (j + 1))).progress = none ∧
      (exec (([Ev.arrive 0, Ev.arrive 1, Ev.complete 7, Ev.runNext,
        Ev.runNext]).take (j + 1))).sensor_progress = [] :=
  clear_before_release
    [Ev.arrive 0, Ev.arrive 1, Ev.complete 7, Ev.runNext, Ev.runNext]
    4 1 ⟨1, 0, false, none⟩ rfl rfl rfl rfl

/-- C3 counterexample.  A call CAN arrive strictly after the fetch has
resolved and still receive the previous fetch's result with no new fetch:
caller 1's `request_update` runs after the `update_bridge` task finished
(event `complete 7`) but before the starting caller's continuation cleared
`progress`; it sees `progress is not None`, awaits the already-done task,
and returns its result immediately.  `fetchCount` stays 1 — no new
`update_bridge` invocation — and caller 1 holds outcome 7. -/
theorem post_resolution_join_counterexample :
    (exec [Ev.arrive 0, Ev.complete 7, Ev.arrive 1]).fetchCount = 1 ∧
    (exec [Ev.arrive 0, Ev.complete 7, Ev.arrive 1]).callers.get? 1 =
      some ⟨1, 0, false, some 7⟩ ∧
    (exec [Ev.arrive 0, Ev.complete 7, Ev.arrive 1]).progress = some 0 :=
  ⟨rfl, rfl, rfl⟩

/-- C3 as amended.  Every call that arrives after the in-flight marker has
been cleared (`progress = None`, which the first waiter's resumption
performs after the fetch resolves) starts a new, independent
`update_bridge` invocation — `fetchCount` increments, the marker points to
the new, still-unresolved fetch, and the caller suspends on it as leader
with no result yet — and this new fetch is strictly ordered after every
previously started fetch's completion: whenever `progress = None`, every
started fetch has already resolved.  A call arriving in the window after
resolution but before the clear instead joins the resolved request and
receives its result (see the counterexample). -/
theorem fresh_request_after_clear (tr : List Ev) (o : Nat)
    (hpr : (exec tr).progress = none) :
    (exec (tr ++ [Ev.arrive o])).fetchCount = (exec tr).fetchCount + 1 ∧
    (exec (tr ++ [Ev.arrive o])).progress = some (exec tr).fetchCount ∧
    (exec (tr ++ [Ev.arrive o])).doneOutcome.lookup (exec tr).fetchCount
      = none ∧
    (∀ f, f < (exec tr).fetchCount →
      ((exec tr).doneOutcome.lookup f).isSome = true) ∧
    (exec (tr ++ [Ev.arrive o])).callers.get? (exec tr).callers.length
      = some ⟨o, (exec tr).fetchCount, true, none⟩ := by
  have hInv := inv_exec tr
  rw [exec_append, step_arrive_fresh _ o hpr]
  refine ⟨rfl, rfl, ?_, ?_, ?_⟩
  · apply lookup_eq_none_of_forall
    intro b hb
    exact absurd (hInv.doneLt _ b hb) (by omega)
  · intro f hf
    cases hlook : (exec tr).doneOutcome.lookup f with
    | none =>
      have := hInv.undoneProgress f hf hlook
      rw [hpr] at this
      exact Option.noConfusion this
    | some v => rfl
  · exact List.get?_concat_length _ _

/-- Witness for C3 as amended: after a full cycle (arrive, resolve, leader
cleanup) the marker is clear, and caller 9's arrival starts fetch 1. -/
theorem fresh_request_after_clear_witness :
    (exec ([Ev.arrive 5, Ev.complete 7,
        Ev.runNext] ++ [Ev.arrive 9])).fetchCount =
      (exec [Ev.arrive 5, Ev.complete 7, Ev.runNext]).fetchCount + 1 ∧
    (exec ([Ev.arrive 5, Ev.complete 7,
        Ev.runNext] ++ [Ev.arrive 9])).progress =
      some (exec [Ev.arrive 5, Ev.complete 7, Ev.runNext]).fetchCount ∧
    ((exec ([Ev.arrive 5, Ev.complete 7,
        Ev.runNext] ++ [Ev.arrive 9])).doneOutcome.lookup
        (exec [Ev.arrive 5, Ev.complete 7, Ev.runNext]).fetchCount) = none ∧
    (∀ f, f < (exec [Ev.arrive 5, Ev.complete 7, Ev.runNext]).fetchCount →
      ((exec [Ev.arrive 5, Ev.complete 7, Ev.runNext]).doneOutcome.lookup
        f).isSome = true) ∧
    ((exec ([Ev.arrive 5, Ev.complete 7,
        Ev.runNext] ++ [Ev.arrive 9])).callers.get?
        (exec [Ev.arrive 5, Ev.complete 7, Ev.runNext]).callers.length)
      = some ⟨9, (exec [Ev.arrive 5, Ev.complete 7, Ev.runNext]).fetchCount,
          true, none⟩ :=
  fresh_request_after_clear [Ev.arrive 5, Ev.complete 7, Ev.runNext] 9 rfl

/-- Witness for C8: two concrete traces that differ only in the caller ids
(ids 7 and 8 versus 1 and 2). -/
theorem caller_identity_noninterference_witness :
    schedView (exec [Ev.arrive 7, Ev.arrive 8, Ev.complete 3, Ev.runNext,
        Ev.runNext])
      = schedView (exec [Ev.arrive 1, Ev.arrive 2, Ev.complete 3, Ev.runNext,
        Ev.runNext]) :=
  caller_identity_noninterference.1
    [Ev.arrive 7, Ev.arrive 8, Ev.complete 3, Ev.runNext, Ev.runNext]
    [Ev.arrive 1, Ev.arrive 2, Ev.complete 3, Ev.runNext, Ev.runNext]
    (by decide)

end Sched
